import Mathlib

/-!
Verification of the ancestry-recording simulation programs
(src/diploid.rs, src/seeding.rs, src/bin/haploid_moran.rs,
src/bin/overlapping_generations.rs) against their specification.

Modelling conventions:
* `f64` values that only ever hold small integral step counts are modelled
  as `ℕ` (node times are `step as f64` with `step : u32`); genomic positions
  are modelled as `ℚ`; `f64` values whose NaN behaviour matters
  (`psurvival`, the uniform draws compared with `partial_cmp`) are modelled
  by `F64`, a rational value or NaN, so that `partial_cmp` returning `None`
  is representable.
* `tsk_id_t` (an `i32`) is modelled as `ℤ`, with `TSK_NULL = -1`.
* The random-number generator is modelled as deterministic streams of draw
  values plus cursor positions; the simulation code consumes the streams in
  source order.  Distributional facts ("uniform", "exponential") are the
  RNG capability's contract and are not modelled.
* Rust panics (explicit `panic!`, `unwrap` on `Err`, failed `assert!`,
  out-of-bounds indexing, division/remainder by zero) are modelled as
  `none` / `Option`-valued functions.
* The tskit table collection itself is an external dependency of this
  repository; its operations (`add_node`, `add_edge`, `full_sort`,
  `simplify`, `build_index`) are modelled from the specification, as
  flagged in each doc comment.
-/

namespace TskitSim

/-- Model of a Rust `f64` as used by this program: either a finite value
(represented as a rational) or NaN.  Infinities do not arise in the
modelled code paths. -/
inductive F64 where
  | val : ℚ → F64
  | nan : F64
deriving DecidableEq, Repr

/-- Model of `f64::partial_cmp`: `None` exactly when an operand is NaN. -/
def F64.pcmp : F64 → F64 → Option Ordering
  | F64.val a, F64.val b => some (compare a b)
  | _, _ => none

/-- Deterministic model of `StdRng`: streams of draw values with cursor
positions.  `reals` backs `rng.gen::<f64>()`; `ints` backs integer
`Uniform` samples (reduced mod the range size); `exps` backs
`rng.sample(exp)` draws from an `Exp` distribution.  Seeding with the same
seed yields the same streams, which is the determinism contract of the
external RNG. -/
structure Rng where
  reals : ℕ → F64
  ints : ℕ → ℕ
  exps : ℕ → ℚ
  rpos : ℕ
  ipos : ℕ
  epos : ℕ

/-- Model of `rng.gen::<f64>()`: take the next value of the `reals` stream. -/
def Rng.genF64 (r : Rng) : F64 × Rng :=
  (r.reals r.rpos, { r with rpos := r.rpos + 1 })

/-- Model of `rng.sample(Uniform::new(0, n))`: next `ints` value reduced
into `[0, n)`.  (The caller guards `n = 0`, where `Uniform::new` panics,
at distribution construction time.) -/
def Rng.sample (r : Rng) (n : ℕ) : ℕ × Rng :=
  (r.ints r.ipos % n, { r with ipos := r.ipos + 1 })

/-- Model of `rng.sample(exp)` for an exponential distribution: next value
of the `exps` stream. -/
def Rng.genExp (r : Rng) : ℚ × Rng :=
  (r.exps r.epos, { r with epos := r.epos + 1 })

/-- The tskit null id sentinel (`tskit::TSK_NULL`). -/
def TSK_NULL : ℤ := -1

/-- A node row: birth time and flags (`src/diploid.rs` always passes
flags `0` and time `step as f64`, a natural number). -/
structure Node where
  flags : ℕ
  time : ℕ
deriving DecidableEq, Repr, Inhabited

/-- An edge row: genomic interval `[left, right)` plus parent and child
node ids. -/
structure Edge where
  left : ℚ
  right : ℚ
  parent : ℤ
  child : ℤ
deriving DecidableEq, Repr, Inhabited

/-- Modelled from the spec: the tskit `TableCollection` (external to this
repository) owns the node rows (ordered, index = id) and the edge rows. -/
structure Tables where
  sequenceLength : ℚ
  nodes : List Node
  edges : List Edge
deriving DecidableEq, Repr

/-- Modelled from the spec: `TableCollection::new(genome_length)` fails
(callers panic) on a non-positive sequence length. -/
def Tables.new (L : ℚ) : Option Tables :=
  if 0 < L then some ⟨L, [], []⟩ else none

/-- Modelled from the spec: `add_node(flags, time, ..)` appends a node and
returns its index as the new id; it never fails in the modelled paths. -/
def Tables.addNode (t : Tables) (flags time : ℕ) : Tables × ℤ :=
  ({ t with nodes := t.nodes ++ [⟨flags, time⟩] }, (t.nodes.length : ℤ))

/-- Modelled from the spec: `add_edge(left, right, parent, child)` appends
an edge; interval/id validity is not checked at insertion time (it is
deferred to sort/simplify). -/
def Tables.addEdge (t : Tables) (l r : ℚ) (p c : ℤ) : Tables :=
  { t with edges := t.edges ++ [⟨l, r, p, c⟩] }

/-- Look up a node by id, `none` for a negative or out-of-range id. -/
def Tables.node? (t : Tables) (i : ℤ) : Option Node :=
  if 0 ≤ i then t.nodes.get? i.toNat else none

/-- The recorded birth time of node `i` (0 for an invalid id). -/
def Tables.timeOf (t : Tables) (i : ℤ) : ℕ :=
  ((t.node? i).getD default).time

/-- `i` is a valid (issued) node id of `t`. -/
def validId (t : Tables) (i : ℤ) : Prop :=
  0 ≤ i ∧ i.toNat < t.nodes.length

instance (t : Tables) (i : ℤ) : Decidable (validId t i) :=
  inferInstanceAs (Decidable (0 ≤ i ∧ i.toNat < t.nodes.length))

/-- The time-ordering invariant: every edge has valid endpoints and the
parent node's time is strictly greater than the child node's time. -/
def EdgesTimeOrdered (t : Tables) : Prop :=
  ∀ e ∈ t.edges,
    validId t e.parent ∧ validId t e.child ∧ t.timeOf e.child < t.timeOf e.parent

instance (t : Tables) : Decidable (EdgesTimeOrdered t) :=
  inferInstanceAs (Decidable (∀ e ∈ t.edges, _ ∧ _ ∧ _))

/-- Insertion step of the edge sort model. -/
def insertSorted (le : Edge → Edge → Bool) (e : Edge) : List Edge → List Edge
  | [] => [e]
  | b :: rest => if le e b then e :: b :: rest else b :: insertSorted le e rest

/-- Sorting by insertion, used to model the external table sort. -/
def sortEdgesBy (le : Edge → Edge → Bool) : List Edge → List Edge
  | [] => []
  | e :: rest => insertSorted le e (sortEdgesBy le rest)

/-- The canonical edge ordering required before simplification: parent
time descending, then parent id, then child id, then left coordinate. -/
def edgeKeyLe (t : Tables) (a b : Edge) : Bool :=
  if t.timeOf a.parent ≠ t.timeOf b.parent then
    decide (t.timeOf b.parent < t.timeOf a.parent)
  else if a.parent ≠ b.parent then decide (a.parent < b.parent)
  else if a.child ≠ b.child then decide (a.child < b.child)
  else decide (a.left ≤ b.left)

/-- Modelled from the spec: `full_sort` reorders the edges into the
canonical order (parent time descending, parent id, child id, left);
nodes are untouched. -/
def Tables.fullSort (t : Tables) : Tables :=
  { t with edges := sortEdgesBy (edgeKeyLe t) t.edges }

/-- Model of Rust `a % b` on unsigned integers: remainder by zero panics. -/
def checkedMod (a b : ℕ) : Option ℕ :=
  if b = 0 then none else some (a % b)

/-- Position of the first occurrence of `x` in `l` (length of `l` when
absent); used to build the simplify id map. -/
def rankOf (x : ℤ) : List ℤ → ℕ
  | [] => 0
  | y :: rest => if y = x then 0 else rankOf x rest + 1

/-- One expansion step of the sample-ancestry closure: add the parent of
every edge whose child is already in the set. -/
def ancestorStep (edges : List Edge) (s : Finset ℤ) : Finset ℤ :=
  edges.foldr (fun e acc => if e.child ∈ s then insert e.parent acc else acc) s

/-- Iterated ancestry closure with explicit fuel. -/
def ancestorClosure (edges : List Edge) : ℕ → Finset ℤ → Finset ℤ
  | 0, s => s
  | k + 1, s => ancestorClosure edges k (ancestorStep edges s)

/-- The node set kept by the modelled simplify: the ancestry closure of
the sample set. -/
def keepSet (t : Tables) (samples : List ℤ) : Finset ℤ :=
  ancestorClosure t.edges t.nodes.length samples.toFinset

/-- The kept node ids in increasing (original) order. -/
def keptIds (t : Tables) (samples : List ℤ) : List ℤ :=
  ((List.range t.nodes.length).map Int.ofNat).filter
    (fun i => decide (i ∈ keepSet t samples))

/-- The id map returned by the modelled simplify: a kept id maps to its
rank among the kept ids, a removed id to `TSK_NULL`. -/
def simplifyIdMap (t : Tables) (samples : List ℤ) : List ℤ :=
  (List.range t.nodes.length).map
    (fun i =>
      if Int.ofNat i ∈ keepSet t samples then
        (rankOf (Int.ofNat i) (keptIds t samples) : ℤ)
      else TSK_NULL)

/-- The surviving node rows, in kept order with times preserved. -/
def simplifyNodes (t : Tables) (samples : List ℤ) : List Node :=
  (keptIds t samples).map (fun k => (t.nodes.get? k.toNat).getD default)

/-- The surviving edge rows: edges among kept nodes, ids remapped. -/
def simplifyEdges (t : Tables) (samples : List ℤ) : List Edge :=
  (t.edges.filter (fun e =>
      decide (e.parent ∈ keepSet t samples) && decide (e.child ∈ keepSet t samples))).map
    (fun e =>
      { e with parent := (rankOf e.parent (keptIds t samples) : ℤ),
               child := (rankOf e.child (keptIds t samples) : ℤ) })

/-- The simplified table before the canonical re-sort of its edges. -/
def preSimplify (t : Tables) (samples : List ℤ) : Tables :=
  { t with nodes := simplifyNodes t samples, edges := simplifyEdges t samples }

/-- The simplified table, edges in canonical sorted order. -/
def simplifyTables (t : Tables) (samples : List ℤ) : Tables :=
  { preSimplify t samples with
    edges := sortEdgesBy (edgeKeyLe (preSimplify t samples))
      (preSimplify t samples).edges }

/-- Modelled from the spec: `TableCollection::simplify(samples, .., true)`
(external tskit).  It fails — callers panic — if `samples` contains a
duplicate id or an id outside the current table.  Otherwise it keeps the
node set that explains the samples' ancestry (modelled as the ancestor
closure of the sample set), renumbers those nodes preserving their order
and times, keeps the edges among surviving nodes with remapped ids,
leaves the output in canonical sorted order, and returns the id map
old id → new id, with removed ids mapped to `TSK_NULL`. -/
def Tables.simplifyModel (t : Tables) (samples : List ℤ) :
    Option (Tables × List ℤ) :=
  if samples.Nodup ∧ ∀ s ∈ samples, validId t s then
    some (simplifyTables t samples, simplifyIdMap t samples)
  else none

/-- `t'` extends `t` with extra node rows only: edges and sequence
length are unchanged, and every valid id of `t` is valid in `t'` with
the same recorded time. -/
def NodesExtend (t t' : Tables) : Prop :=
  t'.sequenceLength = t.sequenceLength ∧ t'.edges = t.edges
  ∧ ∀ i, validId t i → validId t' i ∧ t'.timeOf i = t.timeOf i

/-- All alive node ids are valid and no older than step `s` (times are
strictly larger than the steps still to be executed). -/
def AliveOk (t : Tables) (alive : List ℤ) (s : ℕ) : Prop :=
  ∀ a ∈ alive, validId t a ∧ s ≤ t.timeOf a

/-- The id-remapping loop applied to the alive vector after `simplify` in
both binaries (`haploid_moran.rs` lines 124-128, `overlapping_generations.rs`
lines 267-271): `*a = idmap[*a as usize];` — indexing with a negative or
out-of-range id panics; the mapped value is stored with no further check. -/
def remapAlive (idmap : List ℤ) : List ℤ → Option (List ℤ)
  | [] => some []
  | a :: rest =>
    if 0 ≤ a then
      match idmap.get? a.toNat with
      | some v => (remapAlive idmap rest).map (v :: ·)
      | none => none
    else none

/-- `SimParams` from `src/diploid.rs` lines 5-13.  `popsize`, `nsteps`
and `simplification_interval` are `u32` (modelled as `ℕ`); `xovers` and
`genome_length` are `f64` taking finite values in the modelled paths
(modelled as `ℚ`); `psurvival` is an `f64` whose NaN case matters. -/
structure SimParams where
  popsize : ℕ
  nsteps : ℕ
  xovers : ℚ
  psurvival : F64
  genomeLength : ℚ
  simplificationInterval : ℕ
deriving Repr

/-- The `Default` impl of `SimParams` (`src/diploid.rs` lines 15-26). -/
def SimParams.defaults : SimParams :=
  ⟨1000, 1000, 0, F64.val 0, 1000000, 100⟩

/-- `Diploid` from `src/diploid.rs` lines 28-32: an individual's two
genome-node ids. -/
structure Diploid where
  node0 : ℤ
  node1 : ℤ
deriving DecidableEq, Repr

/-- `Parents` from `src/diploid.rs` lines 34-38. -/
structure Parents where
  index : ℕ
  parent0 : Diploid
  parent1 : Diploid
deriving DecidableEq, Repr

/-- Loop body of `death_and_parents` (`src/diploid.rs` lines 47-62): for
each index draw a uniform value and compare it with `psurvival` via
`partial_cmp`; on `Greater` sample two parents, on any other `Some` do
nothing, and on `None` (NaN) also do nothing — the unordered case is
silently treated as survival. -/
def dpLoop (alive : List Diploid) (psurvival : F64) (popsize : ℕ) :
    List ℕ → Rng → List Parents → Option (List Parents × Rng)
  | [], rng, ps => some (ps, rng)
  | index :: rest, rng, ps =>
    let (x, rng1) := rng.genF64
    match F64.pcmp x psurvival with
    | some Ordering.gt =>
      let (i0, rng2) := rng1.sample popsize
      match alive.get? i0 with
      | none => none
      | some parent0 =>
        let (i1, rng3) := rng2.sample popsize
        match alive.get? i1 with
        | none => none
        | some parent1 =>
          dpLoop alive psurvival popsize rest rng3 (ps ++ [⟨index, parent0, parent1⟩])
    | some _ => dpLoop alive psurvival popsize rest rng1 ps
    | none => dpLoop alive psurvival popsize rest rng1 ps

/-- `death_and_parents` from `src/diploid.rs` lines 40-63.  The
`Uniform::new(0, popsize)` distribution construction panics when
`popsize = 0`. -/
def death_and_parents (alive : List Diploid) (params : SimParams) (rng : Rng) :
    Option (List Parents × Rng) :=
  if params.popsize = 0 then none
  else dpLoop alive params.psurvival params.popsize (List.range alive.length) rng []

/-- `mendel` from `src/diploid.rs` lines 65-74: with the next uniform draw
below one half, swap the two parental node ids; a NaN draw panics. -/
def mendelPair (pnodes : ℤ × ℤ) (rng : Rng) : Option ((ℤ × ℤ) × Rng) :=
  let (x, rng1) := rng.genF64
  match F64.pcmp x (F64.val (1 / 2)) with
  | some Ordering.lt => some ((pnodes.2, pnodes.1), rng1)
  | some _ => some (pnodes, rng1)
  | none => none

/-- Breakpoint loop of `crossover_and_record_edges_details`
(`src/diploid.rs` lines 96-127): repeatedly draw an exponential
interarrival length; while `current_pos + next_length` is below the
sequence length, record an edge for `[current_pos, current_pos +
next_length)` from the current strand, swap strands and advance;
otherwise record the final edge up to the sequence length and stop.
The `draws` list supplies the modelled exponential samples; `none` means
the loop would consume more draws than modelled.  (`partial_cmp` cannot
return `None` here because positions are finite in the model.) -/
def crossoverLoop (off : ℤ) : List ℚ → ℚ → ℤ × ℤ → Tables → Option Tables
  | [], _, _, _ => none
  | d :: ds, pos, pn, t =>
    match compare (pos + d) t.sequenceLength with
    | Ordering.lt =>
      crossoverLoop off ds (pos + d) (pn.2, pn.1) (t.addEdge pos (pos + d) pn.1 off)
    | _ => some (t.addEdge pos t.sequenceLength pn.1 off)

/-- `crossover_and_record_edges_details` from `src/diploid.rs` lines
76-129: apply `mendel` to the parent's node pair; with `xovers == 0`
record a single full-genome edge from the first strand; otherwise build
`Exp::new(xovers / sequence_length)` (which errors — the caller panics —
on a non-positive rate) and run the breakpoint loop from position 0. -/
def crossover_and_record_edges_details (parent : Diploid) (offspringNode : ℤ)
    (params : SimParams) (t : Tables) (rng : Rng) (draws : List ℚ) :
    Option Tables :=
  match mendelPair (parent.node0, parent.node1) rng with
  | none => none
  | some (pn, _) =>
    if params.xovers = 0 then
      some (t.addEdge 0 t.sequenceLength pn.1 offspringNode)
    else if params.xovers / t.sequenceLength ≤ 0 then none
    else crossoverLoop offspringNode draws 0 pn t

/-- Sample-collection loop of the library `simplify` (`src/diploid.rs`
lines 176-181): assert each alive individual's two node ids differ, then
push both onto the sample list. -/
def collectSamples : List Diploid → Option (List ℤ)
  | [] => some []
  | a :: rest =>
    if a.node0 ≠ a.node1 then
      (collectSamples rest).map (fun s => a.node0 :: a.node1 :: s)
    else none

/-- Remap loop of the library `simplify` (`src/diploid.rs` lines
191-196): each stored node id is replaced by its image under the id map
(indexing panics on a negative or out-of-range id) and asserted to be
different from `TSK_NULL`; a null image aborts the run. -/
def diploidRemap (idmap : List ℤ) : List Diploid → Option (List Diploid)
  | [] => some []
  | a :: rest =>
    if 0 ≤ a.node0 then
      match idmap.get? a.node0.toNat with
      | none => none
      | some v0 =>
        if v0 ≠ TSK_NULL then
          if 0 ≤ a.node1 then
            match idmap.get? a.node1.toNat with
            | none => none
            | some v1 =>
              if v1 ≠ TSK_NULL then
                (diploidRemap idmap rest).map (fun l => ⟨v0, v1⟩ :: l)
              else none
          else none
        else none
    else none

/-- The `u64::MAX` bound of `Uniform::new(0_u64, u64::MAX)` in
`src/seeding.rs` line 9 (a half-open range, so draws lie in
`[0, 2^64 - 1)`). -/
def U64MAX : ℕ := 2 ^ 64 - 1

/-- The sample-and-retry loop of `make_unique_seeds` (`src/seeding.rs`
lines 15-18): draw a seed, and while it is already used draw again.  The
fuel bounds the number of modelled draws per accepted seed; the external
RNG makes the loop terminate in practice. -/
def pickFresh (stream : ℕ → ℕ) : ℕ → Finset ℕ → ℕ → Option (ℕ × ℕ)
  | _, _, 0 => none
  | pos, used, fuel + 1 =>
    let v := stream pos % U64MAX
    if v ∈ used then pickFresh stream (pos + 1) used fuel
    else some (v, pos + 1)

/-- Outer loop of `make_unique_seeds` (`src/seeding.rs` lines 14-21):
for each of the remaining `count` seeds pick a fresh value, insert it
into the used set and push it onto the result vector. -/
def seedsLoop (stream : ℕ → ℕ) :
    ℕ → ℕ → ℕ → Finset ℕ → List ℕ → Option (List ℕ)
  | 0, _, _, _, rv => some rv
  | count + 1, pos, fuel, used, rv =>
    match pickFresh stream pos used fuel with
    | none => none
    | some (v, pos') => seedsLoop stream count pos' fuel (insert v used) (rv ++ [v])

/-- `make_unique_seeds(initial_seed, nseeds)` from `src/seeding.rs` lines
8-23.  The `StdRng` seeded from `initial_seed` is modelled by the given
deterministic draw stream; `fuel` bounds retries per accepted seed. -/
def make_unique_seeds (stream : ℕ → ℕ) (nseeds fuel : ℕ) : Option (List ℕ) :=
  seedsLoop stream nseeds 0 fuel ∅ []

/-- `BadParameter` from `src/bin/overlapping_generations.rs` lines 47-56. -/
structure BadParameter where
  msg : String
deriving DecidableEq, Repr

/-- `ProgramOptions::validate` from `src/bin/overlapping_generations.rs`
lines 146-169 (the source notes it is incomplete): compare `psurvival`
with `0.0` — `Less` rejects, any other ordered result and the unordered
`None` fall through — then with `1.0` — `Less` falls through, `Equal` or
`Greater` rejects, and `None` falls through to acceptance. -/
def validate (params : SimParams) : Except BadParameter Unit :=
  match F64.pcmp params.psurvival (F64.val 0) with
  | some Ordering.lt => Except.error ⟨"psurvival must be 0 <= p < 1.0"⟩
  | _ =>
    match F64.pcmp params.psurvival (F64.val 1) with
    | some Ordering.lt => Except.ok ()
    | some _ => Except.error ⟨"psurvival must be 0 <= p < 1.0"⟩
    | none => Except.ok ()

/-! ### The haploid Moran binary (`src/bin/haploid_moran.rs`) -/

/-- State threaded through the Moran generation loop. -/
structure MoranState where
  tables : Tables
  alive : List ℤ
  rng : Rng

/-- Founder loop of `moran` (`src/bin/haploid_moran.rs` lines 88-94):
add `count` nodes at time `nsteps`, pushing each id onto `alive`. -/
def moranInitNodes : ℕ → ℕ → Tables → List ℤ → Tables × List ℤ
  | 0, _, t, alive => (t, alive)
  | k + 1, nsteps, t, alive =>
    moranInitNodes k nsteps (t.addNode 0 nsteps).1
      (alive ++ [(t.addNode 0 nsteps).2])

/-- Birth event of a Moran step (`src/bin/haploid_moran.rs` lines
99-115): sample `dead` and `replace`; when they differ, add one node at
the current time, assert its time is below the replaced individual's
time (`unwrap` panics on an invalid id), add one full-genome edge from
the replaced individual's node to the new node, and overwrite slot
`dead`; when they coincide the step body does nothing. -/
def moranStepBirth (popsize step : ℕ) (t : Tables) (alive : List ℤ) (rng : Rng) :
    Option (Tables × List ℤ × Rng) :=
  let (dead, rng1) := rng.sample popsize
  let (rep, rng2) := rng1.sample popsize
  if dead ≠ rep then
    let (t1, newBirth) := t.addNode 0 step
    match alive.get? rep with
    | none => none
    | some pnode =>
      match t1.node? newBirth, t1.node? pnode with
      | some nb, some pn =>
        if nb.time < pn.time then
          if dead < alive.length then
            some (t1.addEdge 0 1 pnode newBirth, alive.set dead newBirth, rng2)
          else none
        else none
      | _, _ => none
  else some (t, alive, rng2)

/-- One Moran step (`src/bin/haploid_moran.rs` lines 98-134): the birth
event, then — every 100 steps — sort, simplify against the alive nodes
and remap the alive vector.  Returns the table snapshots reached in
order (after the birth event, after sort, after simplify) together with
the next state (`none` models a panic). -/
def moranStep (popsize step : ℕ) (st : MoranState) :
    List Tables × Option MoranState :=
  match moranStepBirth popsize step st.tables st.alive st.rng with
  | none => ([], none)
  | some (t2, alive2, rng2) =>
    if step % 100 = 0 then
      let t3 := t2.fullSort
      match t3.simplifyModel alive2 with
      | none => ([t2, t3], none)
      | some (t4, idmap) =>
        match remapAlive idmap alive2 with
        | none => ([t2, t3, t4], none)
        | some alive3 => ([t2, t3, t4], some ⟨t4, alive3, rng2⟩)
    else ([t2], some ⟨t2, alive2, rng2⟩)

/-- The Moran generation loop `for step in (0..nsteps).rev()`
(`src/bin/haploid_moran.rs` line 98), by recursion on the number of
remaining steps: with `s + 1` steps remaining the next executed step
value is `s`.  Accumulates the table snapshots of every step reached. -/
def moranLoop (popsize : ℕ) : ℕ → MoranState → List Tables × Option MoranState
  | 0, st => ([], some st)
  | s + 1, st =>
    match moranStep popsize s st with
    | (snaps, none) => (snaps, none)
    | (snaps, some st') =>
      let (rest, fin) := moranLoop popsize s st'
      (snaps ++ rest, fin)

/-- `moran(popsize, nsteps, seed)` from `src/bin/haploid_moran.rs` lines
83-137, as a trace: `TableCollection::new(1.0)`, founder creation, the
`Uniform::new(0, popsize)` picker (whose construction panics when
`popsize = 0`), then the generation loop.  Returns all table snapshots
in order (the founder table, then each step's snapshots) and the final
state, `none` modelling a panic. -/
def moranRunTrace (popsize nsteps : ℕ) (rng : Rng) :
    List Tables × Option MoranState :=
  match Tables.new 1 with
  | none => ([], none)
  | some t0 =>
    let (t1, alive) := moranInitNodes popsize nsteps t0 []
    if popsize = 0 then ([t1], none)
    else
      let (snaps, fin) := moranLoop popsize nsteps ⟨t1, alive, rng⟩
      (t1 :: snaps, fin)

/-! ### The overlapping-generations binary (`src/bin/overlapping_generations.rs`) -/

/-- `Replacement` from `src/bin/overlapping_generations.rs` lines 38-45:
per its comment, the nodes at positions `2i` and `2i + 1` are to be
replaced with `node1` and `node2` respectively. -/
structure Replacement where
  index : ℕ
  node1 : ℤ
  node2 : ℤ
deriving DecidableEq, Repr

/-- State threaded through the overlapping-generations loop; `alive` is
the flat vector of node ids, individual `i` occupying slots `2i` and
`2i + 1`. -/
structure OgState where
  tables : Tables
  alive : List ℤ
  rng : Rng

/-- Founder loop (`src/bin/overlapping_generations.rs` lines 182-195):
for each of `count` diploids add two nodes at time `nsteps` and push
both ids. -/
def ogInitNodes : ℕ → ℕ → Tables → List ℤ → Tables × List ℤ
  | 0, _, t, alive => (t, alive)
  | k + 1, nsteps, t, alive =>
    ogInitNodes k nsteps ((t.addNode 0 nsteps).1.addNode 0 nsteps).1
      (alive ++ [(t.addNode 0 nsteps).2, ((t.addNode 0 nsteps).1.addNode 0 nsteps).2])

/-- Death loop (`src/bin/overlapping_generations.rs` lines 206-228): for
each index draw a uniform value and compare it with `psurvival`; on
`Greater` add two offspring nodes at the current step time and record a
`Replacement`; on any other ordered result do nothing; on `None` (NaN)
panic (`"bad floating point comparison"`). -/
def ogDeaths (psurvival : F64) (step : ℕ) :
    List ℕ → Tables → Rng → List Replacement →
    Option (Tables × Rng × List Replacement)
  | [], t, rng, reps => some (t, rng, reps)
  | index :: rest, t, rng, reps =>
    match F64.pcmp (rng.genF64).1 psurvival with
    | some Ordering.gt =>
      ogDeaths psurvival step rest ((t.addNode 0 step).1.addNode 0 step).1
        (rng.genF64).2
        (reps ++ [⟨index, (t.addNode 0 step).2,
          ((t.addNode 0 step).1.addNode 0 step).2⟩])
    | some _ => ogDeaths psurvival step rest t (rng.genF64).2 reps
    | none => none

/-- Edge recording for one offspring node
(`src/bin/overlapping_generations.rs` lines 233-250): pick a parent
index, read its two nodes (indexing panics out of bounds), swap them
when the next draw is below one half (a NaN draw panics), and add a
full-genome edge from the chosen node to the offspring node. -/
def ogRecordEdge (popsize : ℕ) (alive : List ℤ) (off : ℤ) (t : Tables)
    (rng : Rng) : Option (Tables × Rng) :=
  match alive.get? (2 * (rng.sample popsize).1),
      alive.get? (2 * (rng.sample popsize).1 + 1) with
  | some n1, some n2 =>
    match F64.pcmp (((rng.sample popsize).2.genF64).1) (F64.val (1 / 2)) with
    | some Ordering.lt =>
      some (t.addEdge 0 t.sequenceLength n2 off, ((rng.sample popsize).2.genF64).2)
    | some _ =>
      some (t.addEdge 0 t.sequenceLength n1 off, ((rng.sample popsize).2.genF64).2)
    | none => none
  | _, _ => none

/-- Edge loop (`src/bin/overlapping_generations.rs` lines 231-252): for
each replacement record one edge for `node1` and one for `node2`. -/
def ogEdges (popsize : ℕ) (alive : List ℤ) :
    List Replacement → Tables → Rng → Option (Tables × Rng)
  | [], t, rng => some (t, rng)
  | r :: rest, t, rng =>
    match ogRecordEdge popsize alive r.node1 t rng with
    | none => none
    | some (t1, rng1) =>
      match ogRecordEdge popsize alive r.node2 t1 rng1 with
      | none => none
      | some (t2, rng2) => ogEdges popsize alive rest t2 rng2

/-- Replacement loop (`src/bin/overlapping_generations.rs` lines
254-258), embedded exactly as written: both slot `2i` and slot `2i + 1`
receive `rep.node1` (the source assigns `rep.node1` twice; `rep.node2`
is never stored).  Indexing out of bounds panics. -/
def ogReplace : List Replacement → List ℤ → Option (List ℤ)
  | [], alive => some alive
  | r :: rest, alive =>
    if 2 * r.index < alive.length then
      let alive1 := alive.set (2 * r.index) r.node1
      if 2 * r.index + 1 < alive1.length then
        ogReplace rest (alive1.set (2 * r.index + 1) r.node1)
      else none
    else none

/-- One overlapping-generations step
(`src/bin/overlapping_generations.rs` lines 202-277): deaths, edge
recording, replacement, then — when `step % simplification_interval`
(which panics on a zero interval) is zero — sort, simplify against the
alive vector and remap it.  Returns the table snapshots reached in
order (after the replacement loop, after sort, after simplify) and the
next state (`none` models a panic). -/
def ogStep (params : SimParams) (step : ℕ) (st : OgState) :
    List Tables × Option OgState :=
  match ogDeaths params.psurvival step (List.range params.popsize)
      st.tables st.rng [] with
  | none => ([], none)
  | some (t1, rng1, reps) =>
    match ogEdges params.popsize st.alive reps t1 rng1 with
    | none => ([], none)
    | some (t2, rng2) =>
      match ogReplace reps st.alive with
      | none => ([], none)
      | some alive2 =>
        match checkedMod step params.simplificationInterval with
        | none => ([t2], none)
        | some m =>
          if m = 0 then
            let t3 := t2.fullSort
            match t3.simplifyModel alive2 with
            | none => ([t2, t3], none)
            | some (t4, idmap) =>
              match remapAlive idmap alive2 with
              | none => ([t2, t3, t4], none)
              | some alive3 => ([t2, t3, t4], some ⟨t4, alive3, rng2⟩)
          else ([t2], some ⟨t2, alive2, rng2⟩)

/-- The generation loop `for step in (0..nsteps).rev()`
(`src/bin/overlapping_generations.rs` line 202), by recursion on the
number of remaining steps. -/
def ogLoop (params : SimParams) : ℕ → OgState → List Tables × Option OgState
  | 0, st => ([], some st)
  | s + 1, st =>
    match ogStep params s st with
    | (snaps, none) => (snaps, none)
    | (snaps, some st') =>
      let (rest, fin) := ogLoop params s st'
      (snaps ++ rest, fin)

/-- `overlapping_generations(params, seed)` from
`src/bin/overlapping_generations.rs` lines 172-282 as a trace:
`TableCollection::new(genome_length)` (panics on a non-positive length),
founder creation, the parent `Uniform::new(0, popsize)` picker (whose
construction panics when `popsize = 0`), then the generation loop.
Returns all table snapshots in order and the final state, `none`
modelling a panic. -/
def ogRunTrace (params : SimParams) (rng : Rng) :
    List Tables × Option OgState :=
  match Tables.new params.genomeLength with
  | none => ([], none)
  | some t0 =>
    let (t1, alive) := ogInitNodes params.popsize params.nsteps t0 []
    if params.popsize = 0 then ([t1], none)
    else
      let (snaps, fin) := ogLoop params params.nsteps ⟨t1, alive, rng⟩
      (t1 :: snaps, fin)

/-! ### Per-replicate table lifecycle events (for the build-index claim) -/

/-- Kinds of operation applied to a replicate's table collection, in
call order: `mutation` covers every table modification (`add_node`,
`add_edge`, `full_sort`, `simplify`, `add_provenance`), `buildIndex` a
`build_index()` call, `dump` the hand-off to the persistence sink. -/
inductive TableEvent where
  | mutation
  | buildIndex
  | dump
deriving DecidableEq, Repr

/-- Call order of one overlapping-generations replicate
(`run_from_seeds`, lines 308-313): `overlapping_generations` performs
`m` table mutations in the generation loop and then `build_index()`
(line 279); `finalise_tables_and_output` then calls `add_provenance`
(line 297), `build_index()` again (line 302) and `dump` (line 304). -/
def ogReplicateEvents (m : ℕ) : List TableEvent :=
  List.replicate m TableEvent.mutation
    ++ [TableEvent.buildIndex]
    ++ [TableEvent.mutation, TableEvent.buildIndex, TableEvent.dump]

/-- Call order of one Moran replicate (`src/bin/haploid_moran.rs`,
`run_from_seeds` lines 162-167): `moran` performs `m` table mutations
and no `build_index`; `finalise_tables_and_output` then calls
`add_provenance` (line 151), `build_index()` (line 156) and `dump`
(line 158). -/
def moranReplicateEvents (m : ℕ) : List TableEvent :=
  List.replicate m TableEvent.mutation
    ++ [TableEvent.mutation, TableEvent.buildIndex, TableEvent.dump]

/-- The edges recorded for one parent-to-offspring transmission tile the
genome starting at `start`: the list is nonempty, its first edge starts
at `start`, each subsequent edge starts where the previous one ended,
the source strand alternates (`p0` at even positions, `p1` at odd),
every edge's child is the offspring node, and the last edge ends at the
sequence length `L`. -/
def TilesFrom (L start : ℚ) (p0 p1 off : ℤ) (es : List Edge) : Prop :=
  es ≠ []
  ∧ (∀ h : 0 < es.length, (es.get ⟨0, h⟩).left = start)
  ∧ (∀ i (h : i + 1 < es.length),
      (es.get ⟨i + 1, h⟩).left = (es.get ⟨i, Nat.lt_of_succ_lt h⟩).right)
  ∧ (∀ i (h : i < es.length),
      (es.get ⟨i, h⟩).parent = if i % 2 = 0 then p0 else p1)
  ∧ (∀ i (h : i < es.length), (es.get ⟨i, h⟩).child = off)
  ∧ (∀ h : es ≠ [], (es.getLast h).right = L)

/-! ### Concrete fixtures used by witnesses and counterexamples -/

/-- An RNG whose uniform real stream yields NaN on every draw. -/
def nanRng : Rng := ⟨fun _ => F64.nan, fun _ => 0, fun _ => 0, 0, 0, 0⟩

/-- An RNG whose streams are constant zero. -/
def zeroRng : Rng := ⟨fun _ => F64.val 0, fun _ => 0, fun _ => 0, 0, 0, 0⟩

/-- An RNG whose integer stream counts up from zero. -/
def intRng : Rng := ⟨fun _ => F64.val 0, fun i => i, fun _ => 0, 0, 0, 0⟩

/-- A two-founder Moran table (sequence length 1, both nodes at time 7)
used to witness the Moran step theorem. -/
def moranWitnessTables : Tables := ⟨1, [⟨0, 7⟩, ⟨0, 7⟩], []⟩

/-- The table produced by the crossover witness run: genome length 10,
offspring node 7, strands swapped by the Mendel coin to `(6, 5)`,
breakpoint draws `[3, 4, 5]`. -/
def cxOut : Tables :=
  ⟨10, [], [⟨0, 3, 6, 7⟩, ⟨3, 7, 5, 7⟩, ⟨7, 10, 6, 7⟩]⟩

/-- Parameters for the overlapping-generations time-ordering witness:
one diploid, zero steps, genome length 1. -/
def ogWitnessParams : SimParams := ⟨1, 0, 0, F64.val 0, 1, 100⟩

/-- A table with two parent nodes at time 7 and an offspring node at
time 3, for the transmission time-ordering witness. -/
def cxOrdT : Tables := ⟨10, [⟨0, 7⟩, ⟨0, 7⟩, ⟨0, 3⟩], []⟩

end TskitSim

namespace TskitSim

/-! ## Theorems -/

/-- Helper: `partial_cmp` on two finite values follows the rational
order. -/
theorem pcmp_val_val (a b : ℚ) :
    F64.pcmp (F64.val a) (F64.val b) = some (compare a b) := rfl

/-- C1: the claim "for every diploid individual in the alive population,
at all times, node0 ≠ node1" is violated by the replacement loop of
`overlapping_generations` (lines 254-258): for the replacement
`{index: 0, node1: 2, node2: 3}` applied to the alive vector `[0, 1]`,
the individual's two slots both receive node id 2, so its two node ids
are equal (and node2 = 3 is never stored) — while the library's own
`simplify` (diploid.rs line 178) asserts that such a state is
impossible, aborting on the individual `(2, 2)`. -/
theorem c1_replacement_stores_node1_twice :
    ogReplace [⟨0, 2, 3⟩] [0, 1] = some [2, 2]
    ∧ collectSamples [⟨2, 2⟩] = none := by
  constructor <;> rfl

/-- C2 counterexample: applying an id map that sends an alive id to
`TSK_NULL` through the binaries' remap loop does not fail — the run
continues with the null id stored in the alive vector. -/
theorem c2_binaries_store_null_without_failing :
    remapAlive [TSK_NULL] [0] = some [TSK_NULL] := rfl

/-- C2 amended: only the library remap (`diploid.rs` lines 191-196)
fails fatally when an alive individual's id maps to `TSK_NULL` — it
never returns a population containing the null id, and aborts on a null
image — whereas the two binaries' inline remap loops apply the id map
with no null check, silently storing the mapped value. -/
theorem c2_null_check_only_in_library :
    (∀ idmap alive out, diploidRemap idmap alive = some out →
      ∀ d ∈ out, d.node0 ≠ TSK_NULL ∧ d.node1 ≠ TSK_NULL)
    ∧ diploidRemap [TSK_NULL, 4] [⟨0, 1⟩] = none
    ∧ remapAlive [TSK_NULL, 4] [0, 1] = some [TSK_NULL, 4] := by
  refine ⟨?_, rfl, rfl⟩
  intro idmap alive
  induction alive with
  | nil =>
    intro out h d hd
    simp only [diploidRemap] at h
    cases h
    simp at hd
  | cons a rest ih =>
    intro out h d hd
    simp only [diploidRemap] at h
    repeat' split at h
    all_goals try exact Option.noConfusion h
    rw [Option.map_eq_some'] at h
    obtain ⟨l, hl, rfl⟩ := h
    rcases List.mem_cons.mp hd with rfl | hmem
    · exact ⟨by assumption, by assumption⟩
    · exact ih l hl d hmem

/-- C2 witness: the library remap applied to the id map `[5, 7]` and the
alive individual `(0, 1)` yields `(5, 7)`, whose two ids are non-null. -/
theorem c2_witness :
    (Diploid.mk 5 7).node0 ≠ TSK_NULL ∧ (Diploid.mk 5 7).node1 ≠ TSK_NULL :=
  c2_null_check_only_in_library.1 [5, 7] [⟨0, 1⟩] [⟨5, 7⟩] rfl ⟨5, 7⟩ (by simp)

/-- C3: when the uniform survival draw is NaN, the library's
`death_and_parents` (`diploid.rs` line 60, `None => ()`) silently treats
the individual as surviving — it returns normally with no parent record
— while the binary's inline death loop
(`overlapping_generations.rs` line 226) panics on the same unordered
comparison.  The claim that the unordered case always aborts and is
never silently treated as survival is contradicted by the library
function. -/
theorem c3_nan_silently_survives_in_library :
    (death_and_parents [⟨0, 1⟩]
        { SimParams.defaults with popsize := 1, psurvival := F64.val (1 / 2) }
        nanRng).map Prod.fst = some []
    ∧ ogDeaths (F64.val (1 / 2)) 0 [0] ⟨1, [], []⟩ nanRng [] = none := by
  constructor <;> rfl

/-- Evaluation of `validate` on a finite survival probability: reject
exactly when the value is negative or at least one. -/
theorem validate_finite (p : SimParams) (q : ℚ) (hp : p.psurvival = F64.val q) :
    validate p =
      if q < 0 ∨ 1 ≤ q then Except.error ⟨"psurvival must be 0 <= p < 1.0"⟩
      else Except.ok () := by
  unfold validate
  rw [hp]
  simp only [F64.pcmp]
  rcases lt_trichotomy q 0 with h | h | h
  · rw [compare_lt_iff_lt.mpr h, if_pos (Or.inl h)]
  · subst h
    rw [compare_eq_iff_eq.mpr rfl, compare_lt_iff_lt.mpr (by norm_num : (0 : ℚ) < 1),
      if_neg (by norm_num)]
  · rw [compare_gt_iff_gt.mpr h]
    rcases lt_trichotomy q 1 with h1 | h1 | h1
    · rw [compare_lt_iff_lt.mpr h1,
        if_neg (not_or.mpr ⟨not_lt.mpr h.le, not_le.mpr h1⟩)]
    · subst h1
      rw [compare_eq_iff_eq.mpr rfl, if_pos (Or.inr le_rfl)]
    · rw [compare_gt_iff_gt.mpr h1, if_pos (Or.inr h1.le)]

/-- C4: `validate` rejects ordered `psurvival` values outside `[0, 1)`
and accepts values inside, but accepts NaN — both `partial_cmp` matches
treat the unordered case as a fall-through (`None => ()`), so the
non-ordered input the claim requires to be rejected passes validation
(the source itself notes "This function is incomplete"). -/
theorem c4_validate_accepts_nan :
    validate { SimParams.defaults with psurvival := F64.val (-(1 / 2)) }
        = Except.error ⟨"psurvival must be 0 <= p < 1.0"⟩
    ∧ validate { SimParams.defaults with psurvival := F64.val (3 / 2) }
        = Except.error ⟨"psurvival must be 0 <= p < 1.0"⟩
    ∧ validate { SimParams.defaults with psurvival := F64.val 1 }
        = Except.error ⟨"psurvival must be 0 <= p < 1.0"⟩
    ∧ validate { SimParams.defaults with psurvival := F64.val 0 }
        = Except.ok ()
    ∧ validate { SimParams.defaults with psurvival := F64.val (1 / 2) }
        = Except.ok ()
    ∧ validate { SimParams.defaults with psurvival := F64.nan }
        = Except.ok () := by
  refine ⟨?_, ?_, ?_, ?_, ?_, rfl⟩ <;>
    rw [validate_finite _ _ rfl]
  · rw [if_pos (by norm_num)]
  · rw [if_pos (by norm_num)]
  · rw [if_pos (by norm_num)]
  · rw [if_neg (by norm_num)]
  · rw [if_neg (by norm_num)]

/-- C9 counterexample: an overlapping-generations replicate calls
`build_index` twice (once at line 279, once at line 302), not exactly
once — here on the trace of a replicate whose generation loop performed
no table mutation. -/
theorem c9_build_index_called_twice :
    ¬ (ogReplicateEvents 0).count TableEvent.buildIndex = 1 := by decide

/-- C9 amended: in every replicate `build_index` is called at least
once and its final call occurs after the last table mutation and
immediately before the dump; the Moran replicate calls it exactly once,
while the overlapping-generations replicate calls it twice (the extra
call, at the end of the generation loop, precedes the `add_provenance`
mutation). -/
theorem c9_build_index_placement : ∀ m : ℕ,
    (moranReplicateEvents m).count TableEvent.buildIndex = 1
    ∧ (ogReplicateEvents m).count TableEvent.buildIndex = 2
    ∧ (moranReplicateEvents m).reverse.take 2
        = [TableEvent.dump, TableEvent.buildIndex]
    ∧ (ogReplicateEvents m).reverse.take 2
        = [TableEvent.dump, TableEvent.buildIndex] := by
  intro m
  refine ⟨?_, ?_, ?_, ?_⟩ <;>
    simp [moranReplicateEvents, ogReplicateEvents, List.count_append,
      List.count_replicate, List.reverse_append, List.take_append, List.count_cons]

/-- A seed accepted by the retry loop was not previously used. -/
theorem pickFresh_not_used {stream : ℕ → ℕ} :
    ∀ {fuel pos used v pos'},
      pickFresh stream pos used fuel = some (v, pos') → v ∉ used := by
  intro fuel
  induction fuel with
  | zero => intro pos used v pos' h; exact Option.noConfusion h
  | succ fuel ih =>
    intro pos used v pos' h
    simp only [pickFresh] at h
    split at h
    · exact ih h
    · cases h
      assumption

/-- Invariant of the seed-collection loop: starting from a
duplicate-free vector contained in the used set, the loop extends it by
exactly `count` seeds and keeps it duplicate-free. -/
theorem seedsLoop_spec {stream : ℕ → ℕ} :
    ∀ {count pos fuel} {used : Finset ℕ} {rv out : List ℕ},
      rv.Nodup → (∀ x ∈ rv, x ∈ used) →
      seedsLoop stream count pos fuel used rv = some out →
      out.length = rv.length + count ∧ out.Nodup := by
  intro count
  induction count with
  | zero =>
    intro pos fuel used rv out hnd _ h
    cases h
    exact ⟨rfl, hnd⟩
  | succ count ih =>
    intro pos fuel used rv out hnd hsub h
    simp only [seedsLoop] at h
    split at h
    · exact Option.noConfusion h
    · rename_i v pos' heq
      have hv : v ∉ used := pickFresh_not_used heq
      have hnd' : (rv ++ [v]).Nodup := by
        rw [List.nodup_append]
        refine ⟨hnd, List.nodup_singleton v, ?_⟩
        intro x hx hx'
        rw [List.mem_singleton] at hx'
        subst hx'
        exact hv (hsub x hx)
      have hsub' : ∀ x ∈ rv ++ [v], x ∈ insert v used := by
        intro x hx
        rcases List.mem_append.mp hx with hx | hx
        · exact Finset.mem_insert_of_mem (hsub x hx)
        · rw [List.mem_singleton] at hx
          subst hx
          exact Finset.mem_insert_self _ _
      obtain ⟨hlen, hout⟩ := ih hnd' hsub' h
      constructor
      · rw [hlen, List.length_append]
        simp only [List.length_singleton]
        omega
      · exact hout

/-- C8: whenever the modelled `make_unique_seeds(seed, k)` returns (the
fuel bounding the rejection loop's retries suffices), the result has
exactly `k` entries and no duplicates.  Determinism for a fixed seed is
the external RNG's contract (the same seed yields the same draw stream,
and the modelled function is a pure function of the stream). -/
theorem c8_make_unique_seeds_len_nodup :
    ∀ (stream : ℕ → ℕ) (nseeds fuel : ℕ) (out : List ℕ),
      make_unique_seeds stream nseeds fuel = some out →
      out.length = nseeds ∧ out.Nodup := by
  intro stream nseeds fuel out h
  have := seedsLoop_spec (List.nodup_nil) (by intro x hx; cases hx) h
  simpa using this

/-- C8 witness: with the identity draw stream, three seeds are produced:
`[0, 1, 2]`, of length three and duplicate-free. -/
theorem c8_witness : ([0, 1, 2] : List ℕ).length = 3 ∧ ([0, 1, 2] : List ℕ).Nodup :=
  c8_make_unique_seeds_len_nodup (fun i => i) 3 1 [0, 1, 2] (by decide)

/-! ### Table helper lemmas -/

/-- Looking up the id returned by `add_node` yields the added node. -/
theorem node?_addNode_self (t : Tables) (f tm : ℕ) :
    (t.addNode f tm).1.node? (t.addNode f tm).2 = some ⟨f, tm⟩ := by
  simp [Tables.addNode, Tables.node?, Int.toNat_natCast, List.get?_concat_length]

/-- `add_node` does not disturb the lookup of an already-valid id. -/
theorem node?_addNode_of_validId (t : Tables) (f tm : ℕ) {i : ℤ}
    (h : validId t i) : (t.addNode f tm).1.node? i = t.node? i := by
  obtain ⟨h0, hlt⟩ := h
  simp [Tables.addNode, Tables.node?, h0, List.getElem?_append_left hlt]

/-- `add_node` preserves the recorded time of an already-valid id. -/
theorem timeOf_addNode_of_validId (t : Tables) (f tm : ℕ) {i : ℤ}
    (h : validId t i) : (t.addNode f tm).1.timeOf i = t.timeOf i := by
  simp [Tables.timeOf, node?_addNode_of_validId t f tm h]

/-- A valid id stays valid after `add_node`. -/
theorem validId_addNode (t : Tables) (f tm : ℕ) {i : ℤ} (h : validId t i) :
    validId (t.addNode f tm).1 i := by
  obtain ⟨h0, hlt⟩ := h
  refine ⟨h0, ?_⟩
  simp only [Tables.addNode, List.length_append, List.length_singleton]
  omega

/-- The id returned by `add_node` is valid in the extended table. -/
theorem validId_addNode_self (t : Tables) (f tm : ℕ) :
    validId (t.addNode f tm).1 (t.addNode f tm).2 := by
  refine ⟨Int.natCast_nonneg _, ?_⟩
  simp [Tables.addNode, Int.toNat_natCast]

/-- The id returned by `add_node` carries the requested time. -/
theorem timeOf_addNode_self (t : Tables) (f tm : ℕ) :
    (t.addNode f tm).1.timeOf (t.addNode f tm).2 = tm := by
  simp [Tables.timeOf, node?_addNode_self]

/-- `add_edge` leaves the node store unchanged. -/
theorem addEdge_nodes (t : Tables) (l r : ℚ) (p c : ℤ) :
    (t.addEdge l r p c).nodes = t.nodes := rfl

/-- `add_edge` appends exactly one edge row. -/
theorem addEdge_edges (t : Tables) (l r : ℚ) (p c : ℤ) :
    (t.addEdge l r p c).edges = t.edges ++ [⟨l, r, p, c⟩] := rfl

/-- Node lookups are unchanged by `add_edge`. -/
theorem node?_addEdge (t : Tables) (l r : ℚ) (p c i : ℤ) :
    (t.addEdge l r p c).node? i = t.node? i := rfl

/-- Recorded times are unchanged by `add_edge`. -/
theorem timeOf_addEdge (t : Tables) (l r : ℚ) (p c i : ℤ) :
    (t.addEdge l r p c).timeOf i = t.timeOf i := rfl

/-- Validity of ids is unchanged by `add_edge`. -/
theorem validId_addEdge (t : Tables) (l r : ℚ) (p c i : ℤ) :
    validId (t.addEdge l r p c) i ↔ validId t i := Iff.rfl

/-- `add_node` preserves the time-ordering invariant. -/
theorem EdgesTimeOrdered_addNode (t : Tables) (f tm : ℕ)
    (h : EdgesTimeOrdered t) : EdgesTimeOrdered (t.addNode f tm).1 := by
  intro e he
  have he' : e ∈ t.edges := he
  obtain ⟨hp, hc, ht⟩ := h e he'
  exact ⟨validId_addNode t f tm hp, validId_addNode t f tm hc, by
    rw [timeOf_addNode_of_validId t f tm hp, timeOf_addNode_of_validId t f tm hc]
    exact ht⟩

/-- `add_edge` preserves the time-ordering invariant when the added edge
itself satisfies it. -/
theorem EdgesTimeOrdered_addEdge (t : Tables) (l r : ℚ) (p c : ℤ)
    (h : EdgesTimeOrdered t) (hp : validId t p) (hc : validId t c)
    (ht : t.timeOf c < t.timeOf p) : EdgesTimeOrdered (t.addEdge l r p c) := by
  intro e he
  rw [addEdge_edges] at he
  rcases List.mem_append.mp he with he | he
  · obtain ⟨h1, h2, h3⟩ := h e he
    exact ⟨h1, h2, h3⟩
  · rw [List.mem_singleton] at he
    subst he
    exact ⟨hp, hc, ht⟩

/-- C7: a Moran step with `dead == replace` changes neither the tables
nor the alive vector and creates no node or edge; a step with
`dead ≠ replace` appends exactly one node at the current step time,
appends exactly one full-genome edge from the replaced individual's
node to the new node, and overwrites slot `dead` with the new node's
id.  The `dead` and `replace` indices come from consecutive draws of
the integer stream reduced into `[0, popsize)` (their uniformity and
independence are the external RNG's contract). -/
theorem c7_moran_step_cases (popsize step : ℕ) (t : Tables) (alive : List ℤ)
    (rng : Rng) (hpos : 0 < popsize) (hlen : alive.length = popsize)
    (hvalid : ∀ a ∈ alive, validId t a ∧ step < t.timeOf a) :
    (rng.ints rng.ipos % popsize = rng.ints (rng.ipos + 1) % popsize →
      (moranStepBirth popsize step t alive rng).map (fun r => (r.1, r.2.1))
        = some (t, alive))
    ∧ (rng.ints rng.ipos % popsize ≠ rng.ints (rng.ipos + 1) % popsize →
      ∃ pnode, alive.get? (rng.ints (rng.ipos + 1) % popsize) = some pnode ∧
        (moranStepBirth popsize step t alive rng).map (fun r => (r.1, r.2.1))
          = some
            ({ t with nodes := t.nodes ++ [⟨0, step⟩],
                      edges := t.edges ++ [⟨0, 1, pnode, (t.nodes.length : ℤ)⟩] },
             alive.set (rng.ints rng.ipos % popsize) ((t.nodes.length : ℤ)))) := by
  constructor
  · intro hdr
    simp only [moranStepBirth, Rng.sample]
    rw [if_neg (by simpa using hdr)]
    rfl
  · intro hdr
    have hrep : rng.ints (rng.ipos + 1) % popsize < alive.length := by
      rw [hlen]; exact Nat.mod_lt _ hpos
    have hdead : rng.ints rng.ipos % popsize < alive.length := by
      rw [hlen]; exact Nat.mod_lt _ hpos
    refine ⟨alive.get ⟨_, hrep⟩, List.get?_eq_get hrep, ?_⟩
    have hmem := List.get_mem alive _ hrep
    obtain ⟨hval, htime⟩ := hvalid _ hmem
    have h1 : (t.addNode 0 step).1.node? (t.addNode 0 step).2 = some ⟨0, step⟩ :=
      node?_addNode_self t 0 step
    have h2 : (t.addNode 0 step).1.node? (alive.get ⟨_, hrep⟩)
        = t.node? (alive.get ⟨_, hrep⟩) := node?_addNode_of_validId t 0 step hval
    obtain ⟨pn, hpn⟩ : ∃ pn, t.node? (alive.get ⟨_, hrep⟩) = some pn := by
      obtain ⟨h0, hl⟩ := hval
      refine ⟨t.nodes.get ⟨_, hl⟩, ?_⟩
      simp only [Tables.node?, if_pos h0]
      exact List.get?_eq_get hl
    have hpntime : pn.time = t.timeOf (alive.get ⟨_, hrep⟩) := by
      unfold Tables.timeOf
      rw [hpn]
      rfl
    have h717 : ({ flags := 0, time := step } : Node).time < pn.time := by
      simpa [hpntime] using htime
    simp only [moranStepBirth, Rng.sample]
    rw [if_pos (by simpa using hdr)]
    rw [List.get?_eq_get hrep]
    simp only [Tables.addNode] at h1 h2
    simp only [Tables.addNode]
    rw [h1, h2, hpn]
    simp only [if_pos h717, if_pos hdead]
    rfl

/-- The breakpoint loop appends a tiling run of edges from the current
position with alternating strands, and touches neither nodes nor the
sequence length. -/
theorem crossoverLoop_spec (off : ℤ) :
    ∀ (draws : List ℚ) (pos : ℚ) (pn : ℤ × ℤ) (t t' : Tables),
      crossoverLoop off draws pos pn t = some t' →
      t'.sequenceLength = t.sequenceLength ∧ t'.nodes = t.nodes ∧
      ∃ es, t'.edges = t.edges ++ es ∧
        TilesFrom t.sequenceLength pos pn.1 pn.2 off es := by
  intro draws
  induction draws with
  | nil => intro pos pn t t' h; exact Option.noConfusion h
  | cons d ds ih =>
    intro pos pn t t' h
    simp only [crossoverLoop] at h
    split at h
    · -- breakpoint below the sequence length: recurse after the partial edge
      rename_i heq
      have hlt : pos + d < t.sequenceLength := compare_lt_iff_lt.mp heq
      obtain ⟨hsl, hnodes, es', hes', htiles⟩ := ih (pos + d) (pn.2, pn.1) _ t' h
      refine ⟨hsl, hnodes, ⟨pos, pos + d, pn.1, off⟩ :: es', ?_, ?_⟩
      · rw [hes', addEdge_edges]
        simp
      · obtain ⟨hne, hfirst, hchain, hpar, hchild, hlast⟩ := htiles
        have hlen : 0 < es'.length := List.length_pos.mpr hne
        refine ⟨by simp, fun _ => rfl, ?_, ?_, ?_, ?_⟩
        · intro i hi
          match i with
          | 0 => exact hfirst _
          | j + 1 =>
            exact hchain j (by simpa using hi)
        · intro i hi
          match i with
          | 0 => simp
          | j + 1 =>
            have := hpar j (by simpa using hi)
            show (es'.get ⟨j, _⟩).parent = _
            rw [this]
            by_cases hj : j % 2 = 0
            · rw [if_pos hj, if_neg (by omega)]
            · rw [if_neg hj, if_pos (by omega)]
        · intro i hi
          match i with
          | 0 => rfl
          | j + 1 => exact hchild j (by simpa using hi)
        · intro _
          rw [List.getLast_cons hne]
          exact hlast hne
    · -- breakpoint at or beyond the sequence length: final edge and stop
      cases h
      refine ⟨rfl, rfl, [⟨pos, t.sequenceLength, pn.1, off⟩], by rw [addEdge_edges], ?_⟩
      refine ⟨by simp, fun _ => rfl, ?_, ?_, ?_, ?_⟩
      · intro i hi
        simp at hi
      · intro i hi
        simp only [List.length_singleton] at hi
        interval_cases i
        rfl
      · intro i hi
        simp only [List.length_singleton] at hi
        interval_cases i
        rfl
      · intro _
        rfl

/-- C6: for one parent-to-offspring transmission, with the Mendel coin
choosing the strand pair `(p0, p1)`: a zero mean crossover count records
exactly one full-genome edge from the first strand; a non-zero count
runs the breakpoint loop with the exponential rate
`xovers / sequence_length` checked positive, and the recorded edges
tile the genome from position 0 — each edge starts where the previous
ended, strands alternate starting from `p0`, every edge's child is the
offspring node, and the final edge ends at the sequence length.  The
interarrival draws themselves are the external RNG's exponential
capability, modelled by the `draws` stream. -/
theorem c6_crossover_edges_tile (parent : Diploid) (off : ℤ)
    (params : SimParams) (t : Tables) (rng : Rng) (draws : List ℚ)
    (t' : Tables) (p0 p1 : ℤ) (rng' : Rng)
    (hm : mendelPair (parent.node0, parent.node1) rng = some ((p0, p1), rng'))
    (h : crossover_and_record_edges_details parent off params t rng draws
          = some t') :
    (params.xovers = 0 →
      t'.edges = t.edges ++ [⟨0, t.sequenceLength, p0, off⟩])
    ∧ (params.xovers ≠ 0 →
      0 < params.xovers / t.sequenceLength
      ∧ ∃ es, t'.edges = t.edges ++ es
          ∧ TilesFrom t.sequenceLength 0 p0 p1 off es) := by
  simp only [crossover_and_record_edges_details, hm] at h
  constructor
  · intro hx
    rw [if_pos hx] at h
    cases h
    rw [addEdge_edges]
  · intro hx
    rw [if_neg hx] at h
    split at h
    · exact Option.noConfusion h
    · rename_i hrate
      refine ⟨lt_of_not_ge (by simpa using hrate), ?_⟩
      obtain ⟨_, _, es, hes, htiles⟩ := crossoverLoop_spec off draws 0 (p0, p1) t t' h
      exact ⟨es, hes, htiles⟩

/-- C6 witness: genome length 10, parent strands `(5, 6)` swapped by the
Mendel coin to `(6, 5)`, offspring node 7, draws `[3, 4, 5]`: the three
recorded edges `[0,3) from 6`, `[3,7) from 5`, `[7,10) from 6` tile the
genome with alternating strands. -/
theorem c6_witness :
    (({ SimParams.defaults with xovers := 1 } : SimParams).xovers = 0 →
      cxOut.edges = (⟨10, [], []⟩ : Tables).edges
        ++ [⟨0, (⟨10, [], []⟩ : Tables).sequenceLength, 6, 7⟩])
    ∧ (({ SimParams.defaults with xovers := 1 } : SimParams).xovers ≠ 0 →
      0 < ({ SimParams.defaults with xovers := 1 } : SimParams).xovers
            / (⟨10, [], []⟩ : Tables).sequenceLength
      ∧ ∃ es, cxOut.edges = (⟨10, [], []⟩ : Tables).edges ++ es
          ∧ TilesFrom (⟨10, [], []⟩ : Tables).sequenceLength 0 6 5 7 es) := by
  have hc : compare (0 : ℚ) (1 / 2) = Ordering.lt := by
    rw [compare_lt_iff_lt]; norm_num
  have hc3 : compare (3 : ℚ) 10 = Ordering.lt := by
    rw [compare_lt_iff_lt]; norm_num
  have hc7 : compare (7 : ℚ) 10 = Ordering.lt := by
    rw [compare_lt_iff_lt]; norm_num
  have hc12 : compare (12 : ℚ) 10 = Ordering.gt := by
    rw [compare_gt_iff_gt]; norm_num
  exact c6_crossover_edges_tile ⟨5, 6⟩ 7 _ _ zeroRng [3, 4, 5] cxOut 6 5
    { zeroRng with rpos := 1 }
    (by norm_num [mendelPair, Rng.genF64, zeroRng, F64.pcmp, hc])
    (by norm_num [crossover_and_record_edges_details, mendelPair, Rng.genF64,
      zeroRng, F64.pcmp, crossoverLoop, Tables.addEdge, cxOut, hc, hc3, hc7, hc12])

/-- C7 witness: with popsize 2, step 5 and the counting integer stream
(`dead = 0`, `replace = 1`), the theorem's unequal branch evaluates on a
two-founder table: one node at time 5 and one edge from the replaced
node to the new id 2 are appended, and slot 0 is overwritten. -/
theorem c7_witness :
    ∃ pnode, ([0, 1] : List ℤ).get? (intRng.ints (intRng.ipos + 1) % 2) = some pnode ∧
      (moranStepBirth 2 5 moranWitnessTables [0, 1] intRng).map (fun r => (r.1, r.2.1))
        = some
          ({ moranWitnessTables with
              nodes := moranWitnessTables.nodes ++ [⟨0, 5⟩],
              edges := moranWitnessTables.edges
                ++ [⟨0, 1, pnode, (moranWitnessTables.nodes.length : ℤ)⟩] },
           ([0, 1] : List ℤ).set (intRng.ints intRng.ipos % 2)
             ((moranWitnessTables.nodes.length : ℤ))) :=
  (c7_moran_step_cases 2 5 moranWitnessTables [0, 1] intRng (by decide) (by decide)
    (by decide)).2 (by decide)

/-! ### Sorting, closure and rank lemmas -/

/-- Membership through the insertion step of the edge sort. -/
theorem mem_insertSorted {le : Edge → Edge → Bool} {e b : Edge} :
    ∀ {l : List Edge}, b ∈ insertSorted le e l ↔ b = e ∨ b ∈ l := by
  intro l
  induction l with
  | nil => simp [insertSorted]
  | cons c rest ih =>
    simp only [insertSorted]
    split
    · simp [List.mem_cons]
    · simp only [List.mem_cons, ih]
      tauto

/-- The edge sort model permutes membership only. -/
theorem mem_sortEdgesBy {le : Edge → Edge → Bool} {e : Edge} :
    ∀ {l : List Edge}, e ∈ sortEdgesBy le l ↔ e ∈ l := by
  intro l
  induction l with
  | nil => simp [sortEdgesBy]
  | cons c rest ih =>
    simp only [sortEdgesBy, mem_insertSorted, List.mem_cons, ih]

/-- `full_sort` keeps the node store. -/
theorem fullSort_nodes (t : Tables) : t.fullSort.nodes = t.nodes := rfl

/-- `full_sort` keeps recorded times. -/
theorem timeOf_fullSort (t : Tables) (i : ℤ) : t.fullSort.timeOf i = t.timeOf i := rfl

/-- `full_sort` keeps id validity. -/
theorem validId_fullSort (t : Tables) (i : ℤ) :
    validId t.fullSort i ↔ validId t i := Iff.rfl

/-- `full_sort` preserves the time-ordering invariant. -/
theorem EdgesTimeOrdered_fullSort {t : Tables} (h : EdgesTimeOrdered t) :
    EdgesTimeOrdered t.fullSort := by
  intro e he
  have : e ∈ t.edges := mem_sortEdgesBy.mp he
  exact h e this

/-- The closure step only adds elements. -/
theorem subset_ancestorStep (edges : List Edge) (s : Finset ℤ) :
    s ⊆ ancestorStep edges s := by
  unfold ancestorStep
  induction edges with
  | nil => exact fun x hx => hx
  | cons e rest ih =>
    intro x hx
    simp only [List.foldr_cons]
    split
    · exact Finset.mem_insert_of_mem (ih hx)
    · exact ih hx

/-- Everything the closure step adds is an edge parent. -/
theorem mem_ancestorStep_elim {edges : List Edge} {s : Finset ℤ} {x : ℤ} :
    x ∈ ancestorStep edges s → x ∈ s ∨ ∃ e ∈ edges, x = e.parent := by
  unfold ancestorStep
  induction edges with
  | nil => exact fun hx => Or.inl hx
  | cons e rest ih =>
    intro hx
    simp only [List.foldr_cons] at hx
    split at hx
    · rcases Finset.mem_insert.mp hx with rfl | hx
      · exact Or.inr ⟨e, List.mem_cons_self e rest, rfl⟩
      · rcases ih hx with h | ⟨e', he', rfl⟩
        · exact Or.inl h
        · exact Or.inr ⟨e', List.mem_cons_of_mem e he', rfl⟩
    · rcases ih hx with h | ⟨e', he', rfl⟩
      · exact Or.inl h
      · exact Or.inr ⟨e', List.mem_cons_of_mem e he', rfl⟩

/-- The closure contains its base set. -/
theorem subset_ancestorClosure (edges : List Edge) :
    ∀ (k : ℕ) (s : Finset ℤ), s ⊆ ancestorClosure edges k s := by
  intro k
  induction k with
  | zero => exact fun s x hx => hx
  | succ k ih =>
    intro s x hx
    exact ih (ancestorStep edges s) (subset_ancestorStep edges s hx)

/-- Every closure element is a base element or an edge parent. -/
theorem mem_ancestorClosure_elim {edges : List Edge} :
    ∀ {k : ℕ} {s : Finset ℤ} {x : ℤ},
      x ∈ ancestorClosure edges k s → x ∈ s ∨ ∃ e ∈ edges, x = e.parent := by
  intro k
  induction k with
  | zero => exact fun hx => Or.inl hx
  | succ k ih =>
    intro s x hx
    rcases ih hx with h | h
    · exact mem_ancestorStep_elim h
    · exact Or.inr h

/-- The rank of a present element is a valid index. -/
theorem rankOf_lt_length {x : ℤ} : ∀ {l : List ℤ}, x ∈ l → rankOf x l < l.length := by
  intro l
  induction l with
  | nil => intro h; cases h
  | cons y rest ih =>
    intro h
    simp only [rankOf]
    split
    · simp
    · rename_i hne
      have : x ∈ rest := by
        rcases List.mem_cons.mp h with rfl | h
        · exact absurd rfl hne
        · exact h
      simpa [Nat.succ_lt_succ_iff] using ih this

/-- Indexing a list at the rank of a present element recovers it. -/
theorem get?_rankOf {x : ℤ} : ∀ {l : List ℤ}, x ∈ l → l.get? (rankOf x l) = some x := by
  intro l
  induction l with
  | nil => intro h; cases h
  | cons y rest ih =>
    intro h
    simp only [rankOf]
    split
    · rename_i he
      subst he
      rfl
    · rename_i hne
      have : x ∈ rest := by
        rcases List.mem_cons.mp h with rfl | h
        · exact absurd rfl hne
        · exact h
      simpa using ih this

/-! ### Node-extension lemmas -/

/-- Extension is reflexive. -/
theorem NodesExtend.refl (t : Tables) : NodesExtend t t :=
  ⟨rfl, rfl, fun _ h => ⟨h, rfl⟩⟩

/-- Extension is transitive. -/
theorem NodesExtend.trans {t1 t2 t3 : Tables}
    (h12 : NodesExtend t1 t2) (h23 : NodesExtend t2 t3) : NodesExtend t1 t3 := by
  obtain ⟨ha, hb, hc⟩ := h12
  obtain ⟨ha', hb', hc'⟩ := h23
  refine ⟨ha'.trans ha, hb'.trans hb, fun i hi => ?_⟩
  obtain ⟨h1, h2⟩ := hc i hi
  obtain ⟨h3, h4⟩ := hc' i h1
  exact ⟨h3, h4.trans h2⟩

/-- `add_node` is an extension. -/
theorem NodesExtend.addNode (t : Tables) (f tm : ℕ) :
    NodesExtend t (t.addNode f tm).1 :=
  ⟨rfl, rfl, fun _ hi =>
    ⟨validId_addNode t f tm hi, timeOf_addNode_of_validId t f tm hi⟩⟩

/-- Extension preserves the time-ordering invariant. -/
theorem NodesExtend.edgesTimeOrdered {t t' : Tables}
    (hext : NodesExtend t t') (h : EdgesTimeOrdered t) : EdgesTimeOrdered t' := by
  obtain ⟨_, hedges, hids⟩ := hext
  intro e he
  rw [hedges] at he
  obtain ⟨hp, hc, ht⟩ := h e he
  obtain ⟨hp', hpt⟩ := hids e.parent hp
  obtain ⟨hc', hct⟩ := hids e.child hc
  exact ⟨hp', hc', by rw [hpt, hct]; exact ht⟩

/-- The alive bound is monotone downward in the step counter. -/
theorem AliveOk.mono {t : Tables} {alive : List ℤ} {s s' : ℕ}
    (hle : s' ≤ s) (h : AliveOk t alive s) : AliveOk t alive s' :=
  fun a ha => ⟨(h a ha).1, le_trans hle (h a ha).2⟩

/-- The alive bound transfers along a node extension. -/
theorem AliveOk.nodesExtend {t t' : Tables} {alive : List ℤ} {s : ℕ}
    (hext : NodesExtend t t') (h : AliveOk t alive s) : AliveOk t' alive s := by
  intro a ha
  obtain ⟨hv, ht⟩ := h a ha
  obtain ⟨hv', heq⟩ := hext.2.2 a hv
  exact ⟨hv', heq ▸ ht⟩

/-! ### Simplify-model lemmas -/

/-- Membership in the kept-id list: kept and valid. -/
theorem mem_keptIds {t : Tables} {samples : List ℤ} {x : ℤ} :
    x ∈ keptIds t samples ↔
      x ∈ keepSet t samples ∧ 0 ≤ x ∧ x.toNat < t.nodes.length := by
  unfold keptIds
  simp only [List.mem_filter, List.mem_map, List.mem_range, decide_eq_true_eq]
  constructor
  · rintro ⟨⟨i, hi, rfl⟩, hk⟩
    refine ⟨hk, Int.natCast_nonneg i, ?_⟩
    simpa using hi
  · rintro ⟨hk, h0, hlt⟩
    exact ⟨⟨x.toNat, hlt, Int.toNat_of_nonneg h0⟩, hk⟩

/-- A kept, valid id is in the kept-id list. -/
theorem mem_keptIds_of_keep {t : Tables} {samples : List ℤ} {x : ℤ}
    (hk : x ∈ keepSet t samples) (hv : validId t x) : x ∈ keptIds t samples :=
  mem_keptIds.mpr ⟨hk, hv.1, hv.2⟩

/-- The surviving node row at the rank of a kept id is the original row. -/
theorem simplifyNodes_get?_rank {t : Tables} {samples : List ℤ} {x : ℤ}
    (hx : x ∈ keptIds t samples) :
    (simplifyNodes t samples).get? (rankOf x (keptIds t samples))
      = some ((t.nodes.get? x.toNat).getD default) := by
  unfold simplifyNodes
  rw [List.get?_map, get?_rankOf hx]
  rfl

/-- The remapped id of a kept id is valid in the simplified table. -/
theorem validId_simplify_rank {t : Tables} {samples : List ℤ} {x : ℤ}
    (hx : x ∈ keptIds t samples) :
    validId (simplifyTables t samples) ((rankOf x (keptIds t samples) : ℤ)) := by
  refine ⟨Int.natCast_nonneg _, ?_⟩
  rw [Int.toNat_natCast]
  show rankOf x (keptIds t samples) < (simplifyNodes t samples).length
  unfold simplifyNodes
  rw [List.length_map]
  exact rankOf_lt_length hx

/-- The simplified table preserves the time of a kept id at its rank. -/
theorem timeOf_simplify_rank {t : Tables} {samples : List ℤ} {x : ℤ}
    (hx : x ∈ keptIds t samples) :
    (simplifyTables t samples).timeOf ((rankOf x (keptIds t samples) : ℤ))
      = t.timeOf x := by
  have h0x : 0 ≤ x := (mem_keptIds.mp hx).2.1
  unfold Tables.timeOf Tables.node?
  rw [if_pos (Int.natCast_nonneg _), Int.toNat_natCast, if_pos h0x]
  show (((simplifyNodes t samples).get? (rankOf x (keptIds t samples))).getD default).time = _
  rw [simplifyNodes_get?_rank hx]
  rfl

/-- The modelled simplify preserves the time-ordering invariant. -/
theorem EdgesTimeOrdered_simplifyTables {t : Tables} {samples : List ℤ}
    (h : EdgesTimeOrdered t) : EdgesTimeOrdered (simplifyTables t samples) := by
  intro e' he'
  have he2 : e' ∈ simplifyEdges t samples := mem_sortEdgesBy.mp he'
  unfold simplifyEdges at he2
  rw [List.mem_map] at he2
  obtain ⟨e, he, rfl⟩ := he2
  rw [List.mem_filter] at he
  obtain ⟨hmem, hcond⟩ := he
  simp only [Bool.and_eq_true, decide_eq_true_eq] at hcond
  obtain ⟨hkp, hkc⟩ := hcond
  obtain ⟨hvp, hvc, hord⟩ := h e hmem
  have hp' := mem_keptIds_of_keep hkp hvp
  have hc' := mem_keptIds_of_keep hkc hvc
  refine ⟨validId_simplify_rank hp', validId_simplify_rank hc', ?_⟩
  show (simplifyTables t samples).timeOf _ < (simplifyTables t samples).timeOf _
  rw [timeOf_simplify_rank hc', timeOf_simplify_rank hp']
  exact hord

/-- The id map sends a kept valid id to its rank. -/
theorem simplifyIdMap_get? {t : Tables} {samples : List ℤ} {x : ℤ} (h0 : 0 ≤ x)
    (hlt : x.toNat < t.nodes.length) (hk : x ∈ keepSet t samples) :
    (simplifyIdMap t samples).get? x.toNat
      = some ((rankOf x (keptIds t samples) : ℤ)) := by
  unfold simplifyIdMap
  rw [List.get?_map, List.get?_range hlt]
  have hx : Int.ofNat x.toNat = x := Int.toNat_of_nonneg h0
  simp only [Option.map_some', hx, if_pos hk]

/-- Inversion of the modelled simplify. -/
theorem simplifyModel_inv {t : Tables} {samples : List ℤ} {t' : Tables}
    {idmap : List ℤ} (h : t.simplifyModel samples = some (t', idmap)) :
    samples.Nodup ∧ (∀ s ∈ samples, validId t s)
    ∧ t' = simplifyTables t samples ∧ idmap = simplifyIdMap t samples := by
  unfold Tables.simplifyModel at h
  split at h
  · rename_i hcond
    cases h
    exact ⟨hcond.1, hcond.2, rfl, rfl⟩
  · exact Option.noConfusion h

/-- The remap loop preserves the length and maps every output entry
from some input entry through the id map. -/
theorem remapAlive_spec {idmap : List ℤ} :
    ∀ {alive out : List ℤ}, remapAlive idmap alive = some out →
      out.length = alive.length
      ∧ ∀ x ∈ out, ∃ a ∈ alive, 0 ≤ a ∧ idmap.get? a.toNat = some x := by
  intro alive
  induction alive with
  | nil =>
    intro out h
    cases h
    exact ⟨rfl, by simp⟩
  | cons a rest ih =>
    intro out h
    simp only [remapAlive] at h
    split at h
    · rename_i h0
      cases hg : idmap.get? a.toNat with
      | none => rw [hg] at h; exact Option.noConfusion h
      | some v =>
        rw [hg, Option.map_eq_some'] at h
        obtain ⟨l, hl, rfl⟩ := h
        obtain ⟨hlen, hmem⟩ := ih hl
        refine ⟨by simp [hlen], ?_⟩
        intro x hx
        rcases List.mem_cons.mp hx with rfl | hx
        · exact ⟨a, List.mem_cons_self _ _, h0, hg⟩
        · obtain ⟨b, hb, hb0, hbg⟩ := hmem x hx
          exact ⟨b, List.mem_cons_of_mem _ hb, hb0, hbg⟩
    · exact Option.noConfusion h

/-- Sort, simplify and remap together preserve the time-ordering
invariant, the population size and the alive bound. -/
theorem simplify_remap_ok {t t' : Tables} {alive alive' idmap : List ℤ} {s : ℕ}
    (hord : EdgesTimeOrdered t) (hok : AliveOk t alive s)
    (hsim : t.simplifyModel alive = some (t', idmap))
    (hremap : remapAlive idmap alive = some alive') :
    EdgesTimeOrdered t' ∧ alive'.length = alive.length ∧ AliveOk t' alive' s := by
  obtain ⟨hnd, hvalid, rfl, rfl⟩ := simplifyModel_inv hsim
  obtain ⟨hlen, hmem⟩ := remapAlive_spec hremap
  refine ⟨EdgesTimeOrdered_simplifyTables hord, hlen, ?_⟩
  intro x hx
  obtain ⟨a, ha, h0, hg⟩ := hmem x hx
  have hv := hvalid a ha
  have hk : a ∈ keepSet t alive :=
    subset_ancestorClosure t.edges t.nodes.length alive.toFinset
      (List.mem_toFinset.mpr ha)
  rw [simplifyIdMap_get? hv.1 hv.2 hk] at hg
  injection hg with hg'
  subst hg'
  have hkt : a ∈ keptIds t alive := mem_keptIds_of_keep hk hv
  refine ⟨validId_simplify_rank hkt, ?_⟩
  rw [timeOf_simplify_rank hkt]
  exact (hok a ha).2

/-! ### Moran run invariants -/

/-- A valid id resolves to a node row carrying its recorded time. -/
theorem node?_of_validId {t : Tables} {i : ℤ} (h : validId t i) :
    ∃ nd, t.node? i = some nd ∧ nd.time = t.timeOf i := by
  obtain ⟨h0, hl⟩ := h
  refine ⟨t.nodes.get ⟨i.toNat, hl⟩, ?_, ?_⟩
  · simp only [Tables.node?, if_pos h0]
    exact List.get?_eq_get hl
  · unfold Tables.timeOf Tables.node?
    rw [if_pos h0, List.get?_eq_get hl]
    rfl

/-- The Moran birth event preserves the run invariants, stepping the
alive bound down by one. -/
theorem moranStepBirth_inv {popsize s : ℕ} {t : Tables} {alive : List ℤ}
    {rng : Rng} {t2 : Tables} {alive2 : List ℤ} {rng2 : Rng}
    (hord : EdgesTimeOrdered t) (hok : AliveOk t alive (s + 1))
    (h : moranStepBirth popsize s t alive rng = some (t2, alive2, rng2)) :
    EdgesTimeOrdered t2 ∧ alive2.length = alive.length ∧ AliveOk t2 alive2 s := by
  simp only [moranStepBirth, Rng.sample] at h
  split at h
  · -- dead ≠ rep: a birth happens
    cases hget : alive.get? (rng.ints (rng.ipos + 1) % popsize) with
    | none => rw [hget] at h; exact Option.noConfusion h
    | some pnode =>
      rw [hget] at h
      simp only [] at h
      have hmem : pnode ∈ alive := List.get?_mem hget
      obtain ⟨hpv, hpt⟩ := hok pnode hmem
      obtain ⟨pn, hpn, hpnt⟩ := node?_of_validId (validId_addNode t 0 s hpv)
      rw [node?_addNode_self, hpn] at h
      simp only [] at h
      have hteq : (t.addNode 0 s).1.timeOf pnode = t.timeOf pnode :=
        timeOf_addNode_of_validId t 0 s hpv
      split at h
      · split at h
        · cases h
          have hext : NodesExtend t (t.addNode 0 s).1 := NodesExtend.addNode t 0 s
          refine ⟨?_, List.length_set alive _ _, ?_⟩
          · refine EdgesTimeOrdered_addEdge _ 0 1 pnode (t.addNode 0 s).2
              (hext.edgesTimeOrdered hord) (validId_addNode t 0 s hpv)
              (validId_addNode_self t 0 s) ?_
            rw [timeOf_addNode_self, hteq]
            omega
          · intro x hx
            rcases List.mem_or_eq_of_mem_set hx with hx | rfl
            · obtain ⟨hv, ht⟩ := hok x hx
              obtain ⟨hv', heq⟩ := hext.2.2 x hv
              refine ⟨hv', ?_⟩
              show s ≤ ((t.addNode 0 s).1.addEdge 0 1 pnode (t.addNode 0 s).2).timeOf x
              rw [timeOf_addEdge, heq]
              omega
            · refine ⟨validId_addNode_self t 0 s, ?_⟩
              show s ≤ ((t.addNode 0 s).1.addEdge 0 1 pnode (t.addNode 0 s).2).timeOf
                (t.addNode 0 s).2
              rw [timeOf_addEdge, timeOf_addNode_self]
        · exact Option.noConfusion h
      · exact Option.noConfusion h
  · -- dead = rep: no-op
    cases h
    exact ⟨hord, rfl, hok.mono (Nat.le_succ s)⟩

/-- One Moran step: every snapshot it reaches satisfies the
time-ordering invariant, and the successor state satisfies the run
invariants with the bound stepped down. -/
theorem moranStep_inv {popsize s : ℕ} {st : MoranState}
    (hord : EdgesTimeOrdered st.tables) (hlen : st.alive.length = popsize)
    (hok : AliveOk st.tables st.alive (s + 1)) :
    (∀ tb ∈ (moranStep popsize s st).1, EdgesTimeOrdered tb)
    ∧ (∀ st', (moranStep popsize s st).2 = some st' →
        EdgesTimeOrdered st'.tables ∧ st'.alive.length = popsize
        ∧ AliveOk st'.tables st'.alive s) := by
  unfold moranStep
  cases hb : moranStepBirth popsize s st.tables st.alive st.rng with
  | none => exact ⟨by simp, by simp⟩
  | some res =>
    obtain ⟨t2, alive2, rng2⟩ := res
    obtain ⟨h2ord, h2len, h2ok⟩ := moranStepBirth_inv hord hok hb
    have h2len' : alive2.length = popsize := h2len.trans hlen
    simp only []
    by_cases hmod : s % 100 = 0
    · rw [if_pos hmod]
      have h3ord : EdgesTimeOrdered t2.fullSort := EdgesTimeOrdered_fullSort h2ord
      have h3ok : AliveOk t2.fullSort alive2 s := h2ok
      cases hs : (t2.fullSort).simplifyModel alive2 with
      | none =>
        simp only []
        refine ⟨?_, by simp⟩
        intro tb htb
        rcases List.mem_cons.mp htb with rfl | htb
        · exact h2ord
        · rcases List.mem_cons.mp htb with rfl | htb
          · exact h3ord
          · cases htb
      | some pr =>
        obtain ⟨t4, idmap⟩ := pr
        simp only []
        cases hr : remapAlive idmap alive2 with
        | none =>
          simp only []
          refine ⟨?_, by simp⟩
          intro tb htb
          rcases List.mem_cons.mp htb with rfl | htb
          · exact h2ord
          · rcases List.mem_cons.mp htb with rfl | htb
            · exact h3ord
            · rcases List.mem_cons.mp htb with rfl | htb
              · obtain ⟨_, _, rfl, _⟩ := simplifyModel_inv hs
                exact EdgesTimeOrdered_simplifyTables h3ord
              · cases htb
        | some alive3 =>
          simp only []
          obtain ⟨h4ord, h4len, h4ok⟩ := simplify_remap_ok h3ord h3ok hs hr
          constructor
          · intro tb htb
            rcases List.mem_cons.mp htb with rfl | htb
            · exact h2ord
            · rcases List.mem_cons.mp htb with rfl | htb
              · exact h3ord
              · rcases List.mem_cons.mp htb with rfl | htb
                · exact h4ord
                · cases htb
          · intro st' hst'
            cases hst'
            exact ⟨h4ord, h4len.trans h2len', h4ok⟩
    · rw [if_neg hmod]
      constructor
      · intro tb htb
        rcases List.mem_cons.mp htb with rfl | htb
        · exact h2ord
        · cases htb
      · intro st' hst'
        cases hst'
        exact ⟨h2ord, h2len', h2ok⟩

/-- Every table snapshot reached by the Moran generation loop satisfies
the time-ordering invariant. -/
theorem moranLoop_inv {popsize : ℕ} :
    ∀ {n : ℕ} {st : MoranState},
      EdgesTimeOrdered st.tables → st.alive.length = popsize →
      AliveOk st.tables st.alive n →
      ∀ tb ∈ (moranLoop popsize n st).1, EdgesTimeOrdered tb := by
  intro n
  induction n with
  | zero =>
    intro st _ _ _ tb htb
    simp [moranLoop] at htb
  | succ n ih =>
    intro st hord hlen hok tb htb
    unfold moranLoop at htb
    obtain ⟨hsnaps, hnext⟩ := moranStep_inv (s := n) hord hlen hok
    cases hstep : moranStep popsize n st with
    | mk snaps opt =>
      rw [hstep] at htb hsnaps hnext
      cases opt with
      | none => exact hsnaps tb htb
      | some st' =>
        simp only at htb
        rcases List.mem_append.mp htb with h | h
        · exact hsnaps tb h
        · obtain ⟨h1, h2, h3⟩ := hnext st' rfl
          exact ih h1 h2 h3 tb h

/-- The founder loop preserves the run invariants and adds one alive
entry per founder. -/
theorem moranInitNodes_inv :
    ∀ (k nsteps : ℕ) (t : Tables) (alive : List ℤ),
      EdgesTimeOrdered t → AliveOk t alive nsteps →
      EdgesTimeOrdered (moranInitNodes k nsteps t alive).1
      ∧ (moranInitNodes k nsteps t alive).2.length = alive.length + k
      ∧ AliveOk (moranInitNodes k nsteps t alive).1
          (moranInitNodes k nsteps t alive).2 nsteps := by
  intro k
  induction k with
  | zero =>
    intro nsteps t alive h1 h2
    exact ⟨h1, by simp [moranInitNodes], h2⟩
  | succ k ih =>
    intro nsteps t alive h1 h2
    have hext := NodesExtend.addNode t 0 nsteps
    have h1' : EdgesTimeOrdered (t.addNode 0 nsteps).1 := hext.edgesTimeOrdered h1
    have h2' : AliveOk (t.addNode 0 nsteps).1
        (alive ++ [(t.addNode 0 nsteps).2]) nsteps := by
      intro a ha
      rcases List.mem_append.mp ha with ha | ha
      · exact (h2.nodesExtend hext) a ha
      · rw [List.mem_singleton] at ha
        subst ha
        exact ⟨validId_addNode_self t 0 nsteps,
          le_of_eq (timeOf_addNode_self t 0 nsteps).symm⟩
    obtain ⟨ha, hb, hc⟩ := ih nsteps _ _ h1' h2'
    refine ⟨ha, ?_, hc⟩
    show (moranInitNodes k nsteps _ _).2.length = alive.length + (k + 1)
    rw [hb, List.length_append]
    simp
    omega

/-- Every table snapshot of a Moran run, from the founder table through
every step, sort and simplify, satisfies the time-ordering invariant. -/
theorem moranRunTrace_ordered (popsize nsteps : ℕ) (rng : Rng) :
    ∀ tb ∈ (moranRunTrace popsize nsteps rng).1, EdgesTimeOrdered tb := by
  unfold moranRunTrace
  rw [show Tables.new 1 = some ⟨1, [], []⟩ from by
    unfold Tables.new; rw [if_pos (by norm_num)]]
  simp only []
  obtain ⟨hord, hlen, hok⟩ := moranInitNodes_inv popsize nsteps ⟨1, [], []⟩ []
    (by intro e he; cases he) (by intro a ha; cases ha)
  by_cases hp : popsize = 0
  · rw [if_pos hp]
    intro tb htb
    rw [List.mem_singleton] at htb
    subst htb
    exact hord
  · rw [if_neg hp]
    cases hl : moranLoop popsize nsteps
        ⟨(moranInitNodes popsize nsteps ⟨1, [], []⟩ []).1,
         (moranInitNodes popsize nsteps ⟨1, [], []⟩ []).2, rng⟩ with
    | mk snaps fin =>
      simp only []
      intro tb htb
      rcases List.mem_cons.mp htb with rfl | htb
      · exact hord
      · have := @moranLoop_inv popsize nsteps
          ⟨(moranInitNodes popsize nsteps ⟨1, [], []⟩ []).1,
           (moranInitNodes popsize nsteps ⟨1, [], []⟩ []).2, rng⟩
          hord (by simpa using hlen) hok
        rw [hl] at this
        exact this tb htb

/-! ### Overlapping-generations run invariants -/

/-- Validity transfers between tables with the same node store. -/
theorem validId_of_nodes_eq {t t' : Tables} (h : t'.nodes = t.nodes) (i : ℤ) :
    validId t' i ↔ validId t i := by
  unfold validId
  rw [h]

/-- Times transfer between tables with the same node store. -/
theorem timeOf_of_nodes_eq {t t' : Tables} (h : t'.nodes = t.nodes) (i : ℤ) :
    t'.timeOf i = t.timeOf i := by
  unfold Tables.timeOf Tables.node?
  rw [h]

/-- The death loop extends the node store only and every replacement it
produces points at fresh nodes born at the current step. -/
theorem ogDeaths_inv {psurvival : F64} {step : ℕ} :
    ∀ {idxs : List ℕ} {t : Tables} {rng : Rng} {reps : List Replacement}
      {t' : Tables} {rng' : Rng} {reps' : List Replacement},
      ogDeaths psurvival step idxs t rng reps = some (t', rng', reps') →
      NodesExtend t t'
      ∧ ∀ r ∈ reps', r ∈ reps ∨
          (r.index ∈ idxs ∧ validId t' r.node1 ∧ t'.timeOf r.node1 = step
            ∧ validId t' r.node2 ∧ t'.timeOf r.node2 = step) := by
  intro idxs
  induction idxs with
  | nil =>
    intro t rng reps t' rng' reps' h
    cases h
    exact ⟨NodesExtend.refl t, fun r hr => Or.inl hr⟩
  | cons index rest ih =>
    intro t rng reps t' rng' reps' h
    simp only [ogDeaths] at h
    split at h
    · -- death: two nodes added, a replacement recorded
      obtain ⟨hext, hreps⟩ := ih h
      have hext1 : NodesExtend t ((t.addNode 0 step).1.addNode 0 step).1 :=
        (NodesExtend.addNode t 0 step).trans
          (NodesExtend.addNode (t.addNode 0 step).1 0 step)
      have hn1v : validId ((t.addNode 0 step).1.addNode 0 step).1 (t.addNode 0 step).2 :=
        validId_addNode (t.addNode 0 step).1 0 step (validId_addNode_self t 0 step)
      have hn1t : (((t.addNode 0 step).1.addNode 0 step).1).timeOf (t.addNode 0 step).2
          = step := by
        rw [timeOf_addNode_of_validId _ 0 step (validId_addNode_self t 0 step),
          timeOf_addNode_self]
      have hn2v : validId ((t.addNode 0 step).1.addNode 0 step).1
          ((t.addNode 0 step).1.addNode 0 step).2 :=
        validId_addNode_self (t.addNode 0 step).1 0 step
      have hn2t : (((t.addNode 0 step).1.addNode 0 step).1).timeOf
          ((t.addNode 0 step).1.addNode 0 step).2 = step :=
        timeOf_addNode_self (t.addNode 0 step).1 0 step
      refine ⟨hext1.trans hext, ?_⟩
      intro r hr
      rcases hreps r hr with hr' | ⟨hi, h1, h2, h3, h4⟩
      · rcases List.mem_append.mp hr' with hr' | hr'
        · exact Or.inl hr'
        · rw [List.mem_singleton] at hr'
          subst hr'
          refine Or.inr ⟨List.mem_cons_self _ _, ?_, ?_, ?_, ?_⟩
          · exact (hext.2.2 _ hn1v).1
          · rw [(hext.2.2 _ hn1v).2]
            exact hn1t
          · exact (hext.2.2 _ hn2v).1
          · rw [(hext.2.2 _ hn2v).2]
            exact hn2t
      · exact Or.inr ⟨List.mem_cons_of_mem _ hi, h1, h2, h3, h4⟩
    · -- survival: nothing recorded
      obtain ⟨hext, hreps⟩ := ih h
      refine ⟨hext, ?_⟩
      intro r hr
      rcases hreps r hr with hr' | ⟨hi, h1, h2, h3, h4⟩
      · exact Or.inl hr'
      · exact Or.inr ⟨List.mem_cons_of_mem _ hi, h1, h2, h3, h4⟩
    · exact Option.noConfusion h

/-- One offspring's edge record: one full-genome edge from an alive node
to the offspring node, nodes untouched. -/
theorem ogRecordEdge_inv {popsize : ℕ} {alive : List ℤ} {off : ℤ} {t : Tables}
    {rng : Rng} {t' : Tables} {rng' : Rng}
    (h : ogRecordEdge popsize alive off t rng = some (t', rng')) :
    t'.nodes = t.nodes ∧ t'.sequenceLength = t.sequenceLength
    ∧ ∃ n ∈ alive, t'.edges = t.edges ++ [⟨0, t.sequenceLength, n, off⟩] := by
  unfold ogRecordEdge at h
  cases hg1 : alive.get? (2 * (rng.sample popsize).1) with
  | none => rw [hg1] at h; exact Option.noConfusion h
  | some n1 =>
    cases hg2 : alive.get? (2 * (rng.sample popsize).1 + 1) with
    | none => rw [hg1, hg2] at h; exact Option.noConfusion h
    | some n2 =>
      rw [hg1, hg2] at h
      simp only [] at h
      split at h
      · cases h
        exact ⟨rfl, rfl, n2, List.get?_mem hg2, rfl⟩
      · cases h
        exact ⟨rfl, rfl, n1, List.get?_mem hg1, rfl⟩
      · exact Option.noConfusion h

/-- One offspring's edge record preserves the time-ordering invariant
when the offspring node was born at the current step and all alive nodes
are strictly older. -/
theorem ogRecordEdge_ordered {popsize : ℕ} {alive : List ℤ} {s : ℕ} {off : ℤ}
    {t : Tables} {rng : Rng} {t' : Tables} {rng' : Rng}
    (h : ogRecordEdge popsize alive off t rng = some (t', rng'))
    (hord : EdgesTimeOrdered t)
    (halive : ∀ a ∈ alive, validId t a ∧ s < t.timeOf a)
    (hoff : validId t off) (hofft : t.timeOf off = s) :
    t'.nodes = t.nodes ∧ t'.sequenceLength = t.sequenceLength
    ∧ EdgesTimeOrdered t' := by
  obtain ⟨hn, hsl, n, hmem, hedges⟩ := ogRecordEdge_inv h
  refine ⟨hn, hsl, ?_⟩
  intro e he
  rw [hedges] at he
  rcases List.mem_append.mp he with he | he
  · obtain ⟨h1, h2, h3⟩ := hord e he
    exact ⟨(validId_of_nodes_eq hn _).mpr h1, (validId_of_nodes_eq hn _).mpr h2,
      by rw [timeOf_of_nodes_eq hn, timeOf_of_nodes_eq hn]; exact h3⟩
  · rw [List.mem_singleton] at he
    subst he
    obtain ⟨ha, hat⟩ := halive n hmem
    refine ⟨(validId_of_nodes_eq hn _).mpr ha, (validId_of_nodes_eq hn _).mpr hoff, ?_⟩
    show t'.timeOf off < t'.timeOf n
    rw [timeOf_of_nodes_eq hn, timeOf_of_nodes_eq hn, hofft]
    exact hat

/-- The edge loop keeps the node store and the time-ordering invariant,
given that every replacement's offspring nodes were born at the current
step. -/
theorem ogEdges_inv {popsize : ℕ} {alive : List ℤ} {s : ℕ} :
    ∀ {reps : List Replacement} {t : Tables} {rng : Rng} {t' : Tables} {rng' : Rng},
      ogEdges popsize alive reps t rng = some (t', rng') →
      EdgesTimeOrdered t →
      (∀ a ∈ alive, validId t a ∧ s < t.timeOf a) →
      (∀ r ∈ reps, validId t r.node1 ∧ t.timeOf r.node1 = s
        ∧ validId t r.node2 ∧ t.timeOf r.node2 = s) →
      t'.nodes = t.nodes ∧ t'.sequenceLength = t.sequenceLength
      ∧ EdgesTimeOrdered t' := by
  intro reps
  induction reps with
  | nil =>
    intro t rng t' rng' h _ _ _
    cases h
    exact ⟨rfl, rfl, by assumption⟩
  | cons r rest ih =>
    intro t rng t' rng' h hord halive hreps
    simp only [ogEdges] at h
    cases h1 : ogRecordEdge popsize alive r.node1 t rng with
    | none => rw [h1] at h; exact Option.noConfusion h
    | some pr1 =>
      obtain ⟨t1, rng1⟩ := pr1
      rw [h1] at h
      simp only [] at h
      obtain ⟨hrv, hrt1, hrt2, _⟩ := hreps r (List.mem_cons_self r rest)
      obtain ⟨hn1, hs1, h1ord⟩ := ogRecordEdge_ordered h1 hord halive hrv hrt1
      have halive1 : ∀ a ∈ alive, validId t1 a ∧ s < t1.timeOf a := by
        intro a ha
        obtain ⟨hv, ht⟩ := halive a ha
        exact ⟨(validId_of_nodes_eq hn1 _).mpr hv,
          by rw [timeOf_of_nodes_eq hn1]; exact ht⟩
      cases h2 : ogRecordEdge popsize alive r.node2 t1 rng1 with
      | none => rw [h2] at h; exact Option.noConfusion h
      | some pr2 =>
        obtain ⟨t2, rng2⟩ := pr2
        rw [h2] at h
        simp only [] at h
        obtain ⟨_, _, hrv2, hrt2'⟩ := hreps r (List.mem_cons_self r rest)
        obtain ⟨hn2, hs2, h2ord⟩ := ogRecordEdge_ordered h2 h1ord halive1
          ((validId_of_nodes_eq hn1 _).mpr hrv2)
          (by rw [timeOf_of_nodes_eq hn1]; exact hrt2')
        have halive2 : ∀ a ∈ alive, validId t2 a ∧ s < t2.timeOf a := by
          intro a ha
          obtain ⟨hv, ht⟩ := halive1 a ha
          exact ⟨(validId_of_nodes_eq hn2 _).mpr hv,
            by rw [timeOf_of_nodes_eq hn2]; exact ht⟩
        have hreps2 : ∀ r' ∈ rest, validId t2 r'.node1 ∧ t2.timeOf r'.node1 = s
            ∧ validId t2 r'.node2 ∧ t2.timeOf r'.node2 = s := by
          intro r' hr'
          obtain ⟨a1, a2, a3, a4⟩ := hreps r' (List.mem_cons_of_mem r hr')
          have hn21 : t2.nodes = t.nodes := hn2.trans hn1
          exact ⟨(validId_of_nodes_eq hn21 _).mpr a1,
            by rw [timeOf_of_nodes_eq hn21]; exact a2,
            (validId_of_nodes_eq hn21 _).mpr a3,
            by rw [timeOf_of_nodes_eq hn21]; exact a4⟩
        obtain ⟨hna, hnb, hnc⟩ := ih h h2ord halive2 hreps2
        exact ⟨hna.trans (hn2.trans hn1), hnb.trans (hs2.trans hs1), hnc⟩

/-- The replacement loop keeps the population size, and every entry of
the updated alive vector is an old entry or some replacement's `node1`. -/
theorem ogReplace_spec :
    ∀ {reps : List Replacement} {alive alive' : List ℤ},
      ogReplace reps alive = some alive' →
      alive'.length = alive.length
      ∧ ∀ x ∈ alive', x ∈ alive ∨ ∃ r ∈ reps, x = r.node1 := by
  intro reps
  induction reps with
  | nil =>
    intro alive alive' h
    cases h
    exact ⟨rfl, fun x hx => Or.inl hx⟩
  | cons r rest ih =>
    intro alive alive' h
    simp only [ogReplace] at h
    split at h
    · split at h
      · obtain ⟨hlen, hmem⟩ := ih h
        refine ⟨by rw [hlen]; simp, ?_⟩
        intro x hx
        rcases hmem x hx with hx' | ⟨r', hr', rfl⟩
        · rcases List.mem_or_eq_of_mem_set hx' with hx'' | rfl
          · rcases List.mem_or_eq_of_mem_set hx'' with hx''' | rfl
            · exact Or.inl hx'''
            · exact Or.inr ⟨r, List.mem_cons_self r rest, rfl⟩
          · exact Or.inr ⟨r, List.mem_cons_self r rest, rfl⟩
        · exact Or.inr ⟨r', List.mem_cons_of_mem r hr', rfl⟩
      · exact Option.noConfusion h
    · exact Option.noConfusion h

/-- One overlapping-generations step: every snapshot it reaches
satisfies the time-ordering invariant, and the successor state satisfies
the run invariants with the bound stepped down. -/
theorem ogStep_inv {params : SimParams} {s : ℕ} {st : OgState}
    (hord : EdgesTimeOrdered st.tables)
    (hlen : st.alive.length = 2 * params.popsize)
    (hok : AliveOk st.tables st.alive (s + 1)) :
    (∀ tb ∈ (ogStep params s st).1, EdgesTimeOrdered tb)
    ∧ (∀ st', (ogStep params s st).2 = some st' →
        EdgesTimeOrdered st'.tables ∧ st'.alive.length = 2 * params.popsize
        ∧ AliveOk st'.tables st'.alive s) := by
  unfold ogStep
  cases hd : ogDeaths params.psurvival s (List.range params.popsize)
      st.tables st.rng [] with
  | none => exact ⟨by simp, by simp⟩
  | some res1 =>
    obtain ⟨t1, rng1, reps⟩ := res1
    simp only []
    obtain ⟨hext, hreps0⟩ := ogDeaths_inv hd
    have h1ord : EdgesTimeOrdered t1 := hext.edgesTimeOrdered hord
    have halive1 : ∀ a ∈ st.alive, validId t1 a ∧ s < t1.timeOf a := by
      intro a ha
      obtain ⟨hv, ht⟩ := hok a ha
      obtain ⟨hv', heq⟩ := hext.2.2 a hv
      exact ⟨hv', by rw [heq]; omega⟩
    have hreps : ∀ r ∈ reps, validId t1 r.node1 ∧ t1.timeOf r.node1 = s
        ∧ validId t1 r.node2 ∧ t1.timeOf r.node2 = s := by
      intro r hr
      rcases hreps0 r hr with h' | ⟨_, a1, a2, a3, a4⟩
      · cases h'
      · exact ⟨a1, a2, a3, a4⟩
    cases he : ogEdges params.popsize st.alive reps t1 rng1 with
    | none => exact ⟨by simp, by simp⟩
    | some res2 =>
      obtain ⟨t2, rng2⟩ := res2
      simp only []
      obtain ⟨hn2, hs2, h2ord⟩ := ogEdges_inv he h1ord halive1 hreps
      cases hrep : ogReplace reps st.alive with
      | none => exact ⟨by simp, by simp⟩
      | some alive2 =>
        simp only []
        obtain ⟨hlen2, hmem2⟩ := ogReplace_spec hrep
        have h2ok : AliveOk t2 alive2 s := by
          intro x hx
          rcases hmem2 x hx with hx' | ⟨r, hr, rfl⟩
          · obtain ⟨hv, ht⟩ := halive1 x hx'
            exact ⟨(validId_of_nodes_eq hn2 _).mpr hv,
              by rw [timeOf_of_nodes_eq hn2]; omega⟩
          · obtain ⟨a1, a2, _, _⟩ := hreps r hr
            refine ⟨(validId_of_nodes_eq hn2 _).mpr a1, ?_⟩
            rw [timeOf_of_nodes_eq hn2, a2]
        have hlen2' : alive2.length = 2 * params.popsize := hlen2.trans hlen
        cases hcm : checkedMod s params.simplificationInterval with
        | none =>
          simp only []
          refine ⟨?_, by simp⟩
          intro tb htb
          rw [List.mem_singleton] at htb
          subst htb
          exact h2ord
        | some m =>
          simp only []
          by_cases hm : m = 0
          · rw [if_pos hm]
            have h3ord : EdgesTimeOrdered t2.fullSort :=
              EdgesTimeOrdered_fullSort h2ord
            have h3ok : AliveOk t2.fullSort alive2 s := h2ok
            cases hsim : (t2.fullSort).simplifyModel alive2 with
            | none =>
              simp only []
              refine ⟨?_, by simp⟩
              intro tb htb
              rcases List.mem_cons.mp htb with rfl | htb
              · exact h2ord
              · rcases List.mem_cons.mp htb with rfl | htb
                · exact h3ord
                · cases htb
            | some pr =>
              obtain ⟨t4, idmap⟩ := pr
              simp only []
              cases hr : remapAlive idmap alive2 with
              | none =>
                simp only []
                refine ⟨?_, by simp⟩
                intro tb htb
                rcases List.mem_cons.mp htb with rfl | htb
                · exact h2ord
                · rcases List.mem_cons.mp htb with rfl | htb
                  · exact h3ord
                  · rcases List.mem_cons.mp htb with rfl | htb
                    · obtain ⟨_, _, rfl, _⟩ := simplifyModel_inv hsim
                      exact EdgesTimeOrdered_simplifyTables h3ord
                    · cases htb
              | some alive3 =>
                simp only []
                obtain ⟨h4ord, h4len, h4ok⟩ := simplify_remap_ok h3ord h3ok hsim hr
                constructor
                · intro tb htb
                  rcases List.mem_cons.mp htb with rfl | htb
                  · exact h2ord
                  · rcases List.mem_cons.mp htb with rfl | htb
                    · exact h3ord
                    · rcases List.mem_cons.mp htb with rfl | htb
                      · exact h4ord
                      · cases htb
                · intro st' hst'
                  cases hst'
                  exact ⟨h4ord, h4len.trans hlen2', h4ok⟩
          · rw [if_neg hm]
            constructor
            · intro tb htb
              rcases List.mem_cons.mp htb with rfl | htb
              · exact h2ord
              · cases htb
            · intro st' hst'
              cases hst'
              exact ⟨h2ord, hlen2', h2ok⟩

/-- Every table snapshot reached by the overlapping-generations loop
satisfies the time-ordering invariant. -/
theorem ogLoop_inv {params : SimParams} :
    ∀ {n : ℕ} {st : OgState},
      EdgesTimeOrdered st.tables → st.alive.length = 2 * params.popsize →
      AliveOk st.tables st.alive n →
      ∀ tb ∈ (ogLoop params n st).1, EdgesTimeOrdered tb := by
  intro n
  induction n with
  | zero =>
    intro st _ _ _ tb htb
    simp [ogLoop] at htb
  | succ n ih =>
    intro st hord hlen hok tb htb
    unfold ogLoop at htb
    obtain ⟨hsnaps, hnext⟩ := ogStep_inv (s := n) hord hlen hok
    cases hstep : ogStep params n st with
    | mk snaps opt =>
      rw [hstep] at htb hsnaps hnext
      cases opt with
      | none => exact hsnaps tb htb
      | some st' =>
        simp only at htb
        rcases List.mem_append.mp htb with h | h
        · exact hsnaps tb h
        · obtain ⟨h1, h2, h3⟩ := hnext st' rfl
          exact ih h1 h2 h3 tb h

/-- The overlapping-generations founder loop preserves the run
invariants and adds two alive entries per diploid founder. -/
theorem ogInitNodes_inv :
    ∀ (k nsteps : ℕ) (t : Tables) (alive : List ℤ),
      EdgesTimeOrdered t → AliveOk t alive nsteps →
      EdgesTimeOrdered (ogInitNodes k nsteps t alive).1
      ∧ (ogInitNodes k nsteps t alive).2.length = alive.length + 2 * k
      ∧ AliveOk (ogInitNodes k nsteps t alive).1
          (ogInitNodes k nsteps t alive).2 nsteps := by
  intro k
  induction k with
  | zero =>
    intro nsteps t alive h1 h2
    exact ⟨h1, by simp [ogInitNodes], h2⟩
  | succ k ih =>
    intro nsteps t alive h1 h2
    have hext : NodesExtend t ((t.addNode 0 nsteps).1.addNode 0 nsteps).1 :=
      (NodesExtend.addNode t 0 nsteps).trans
        (NodesExtend.addNode (t.addNode 0 nsteps).1 0 nsteps)
    have h1' : EdgesTimeOrdered ((t.addNode 0 nsteps).1.addNode 0 nsteps).1 :=
      hext.edgesTimeOrdered h1
    have hn1v : validId ((t.addNode 0 nsteps).1.addNode 0 nsteps).1
        (t.addNode 0 nsteps).2 :=
      validId_addNode (t.addNode 0 nsteps).1 0 nsteps (validId_addNode_self t 0 nsteps)
    have hn1t : (((t.addNode 0 nsteps).1.addNode 0 nsteps).1).timeOf
        (t.addNode 0 nsteps).2 = nsteps := by
      rw [timeOf_addNode_of_validId _ 0 nsteps (validId_addNode_self t 0 nsteps),
        timeOf_addNode_self]
    have h2' : AliveOk ((t.addNode 0 nsteps).1.addNode 0 nsteps).1
        (alive ++ [(t.addNode 0 nsteps).2,
          ((t.addNode 0 nsteps).1.addNode 0 nsteps).2]) nsteps := by
      intro a ha
      rcases List.mem_append.mp ha with ha | ha
      · exact (h2.nodesExtend hext) a ha
      · rcases List.mem_cons.mp ha with rfl | ha
        · exact ⟨hn1v, le_of_eq hn1t.symm⟩
        · rw [List.mem_singleton] at ha
          subst ha
          exact ⟨validId_addNode_self (t.addNode 0 nsteps).1 0 nsteps,
            le_of_eq (timeOf_addNode_self (t.addNode 0 nsteps).1 0 nsteps).symm⟩
    obtain ⟨ha, hb, hc⟩ := ih nsteps _ _ h1' h2'
    refine ⟨ha, ?_, hc⟩
    show (ogInitNodes k nsteps _ _).2.length = alive.length + 2 * (k + 1)
    rw [hb, List.length_append]
    simp
    omega

/-- Inversion of the table constructor model. -/
theorem Tables.new_inv {L : ℚ} {t0 : Tables} (h : Tables.new L = some t0) :
    t0 = ⟨L, [], []⟩ := by
  unfold Tables.new at h
  split at h
  · cases h; rfl
  · exact Option.noConfusion h

/-- Every table snapshot of an overlapping-generations run, from the
founder table through every step, sort and simplify, satisfies the
time-ordering invariant. -/
theorem ogRunTrace_ordered (params : SimParams) (rng : Rng) :
    ∀ tb ∈ (ogRunTrace params rng).1, EdgesTimeOrdered tb := by
  unfold ogRunTrace
  cases hnew : Tables.new params.genomeLength with
  | none => simp
  | some t0 =>
    have ht0 : t0 = ⟨params.genomeLength, [], []⟩ := Tables.new_inv hnew
    subst ht0
    simp only []
    obtain ⟨hord, hlen, hok⟩ := ogInitNodes_inv params.popsize params.nsteps
      ⟨params.genomeLength, [], []⟩ []
      (by intro e he; cases he) (by intro a ha; cases ha)
    by_cases hp : params.popsize = 0
    · rw [if_pos hp]
      intro tb htb
      rw [List.mem_singleton] at htb
      subst htb
      exact hord
    · rw [if_neg hp]
      cases hl : ogLoop params params.nsteps
          ⟨(ogInitNodes params.popsize params.nsteps ⟨params.genomeLength, [], []⟩ []).1,
           (ogInitNodes params.popsize params.nsteps ⟨params.genomeLength, [], []⟩ []).2,
           rng⟩ with
      | mk snaps fin =>
        simp only []
        intro tb htb
        rcases List.mem_cons.mp htb with rfl | htb
        · exact hord
        · have := @ogLoop_inv params params.nsteps
            ⟨(ogInitNodes params.popsize params.nsteps
                ⟨params.genomeLength, [], []⟩ []).1,
             (ogInitNodes params.popsize params.nsteps
                ⟨params.genomeLength, [], []⟩ []).2, rng⟩
            hord (by simpa using hlen) hok
          rw [hl] at this
          exact this tb htb

/-! ### Transmission-level time ordering -/

/-- The Mendel coin either keeps or swaps the strand pair. -/
theorem mendelPair_cases {p : ℤ × ℤ} {rng : Rng} {pn : ℤ × ℤ} {rng' : Rng}
    (h : mendelPair p rng = some (pn, rng')) : pn = p ∨ pn = (p.2, p.1) := by
  simp only [mendelPair, Rng.genF64] at h
  split at h
  · cases h
    exact Or.inr rfl
  · cases h
    exact Or.inl rfl
  · exact Option.noConfusion h

/-- The breakpoint loop preserves the time-ordering invariant when both
strands are valid and strictly older than the offspring node. -/
theorem crossoverLoop_ordered {off : ℤ} :
    ∀ {draws : List ℚ} {pos : ℚ} {pn : ℤ × ℤ} {t t' : Tables},
      crossoverLoop off draws pos pn t = some t' →
      EdgesTimeOrdered t →
      validId t pn.1 → validId t pn.2 → validId t off →
      t.timeOf off < t.timeOf pn.1 → t.timeOf off < t.timeOf pn.2 →
      EdgesTimeOrdered t' := by
  intro draws
  induction draws with
  | nil => intro pos pn t t' h; exact fun _ _ _ _ _ _ => absurd h (by simp [crossoverLoop])
  | cons d ds ih =>
    intro pos pn t t' h hord h1 h2 hoff ht1 ht2
    simp only [crossoverLoop] at h
    split at h
    · exact ih h (EdgesTimeOrdered_addEdge t _ _ _ _ hord h1 hoff ht1) h2 h1 hoff ht2 ht1
    · cases h
      exact EdgesTimeOrdered_addEdge t _ _ _ _ hord h1 hoff ht1

/-- One transmission's edge recording preserves the time-ordering
invariant when the parent's two nodes are valid and strictly older than
the valid offspring node. -/
theorem crossover_details_ordered {parent : Diploid} {off : ℤ}
    {params : SimParams} {t : Tables} {rng : Rng} {draws : List ℚ} {t' : Tables}
    (hord : EdgesTimeOrdered t)
    (hp0 : validId t parent.node0) (hp1 : validId t parent.node1)
    (hoff : validId t off)
    (ht0 : t.timeOf off < t.timeOf parent.node0)
    (ht1 : t.timeOf off < t.timeOf parent.node1)
    (h : crossover_and_record_edges_details parent off params t rng draws
          = some t') :
    EdgesTimeOrdered t' := by
  unfold crossover_and_record_edges_details at h
  cases hm : mendelPair (parent.node0, parent.node1) rng with
  | none => rw [hm] at h; exact Option.noConfusion h
  | some pr =>
    obtain ⟨pn, rng1⟩ := pr
    rw [hm] at h
    simp only [] at h
    have hpn : (validId t pn.1 ∧ t.timeOf off < t.timeOf pn.1)
        ∧ (validId t pn.2 ∧ t.timeOf off < t.timeOf pn.2) := by
      rcases mendelPair_cases hm with rfl | heq
      · exact ⟨⟨hp0, ht0⟩, ⟨hp1, ht1⟩⟩
      · rw [heq]
        exact ⟨⟨hp1, ht1⟩, ⟨hp0, ht0⟩⟩
    split at h
    · cases h
      exact EdgesTimeOrdered_addEdge t _ _ _ _ hord hpn.1.1 hoff hpn.1.2
    · split at h
      · exact Option.noConfusion h
      · exact crossoverLoop_ordered h hord hpn.1.1 hpn.2.1 hoff hpn.1.2 hpn.2.2

/-- C5: parent birth time strictly exceeds child birth time for every
edge, at every point of both model runs — after initialization, after
each step's recording and replacement, after each sort and after each
simplify (first and second conjuncts: every table snapshot of the
respective run trace) — and likewise for the diploid library's
per-transmission edge recording used by `births` (third conjunct).
The external sort and simplify are modelled from the spec (sort permutes
edges; simplify keeps the sample-ancestry subgraph with times
preserved). -/
theorem c5_parent_time_gt_child_time :
    (∀ (popsize nsteps : ℕ) (rng : Rng),
      ∀ tb ∈ (moranRunTrace popsize nsteps rng).1, EdgesTimeOrdered tb)
    ∧ (∀ (params : SimParams) (rng : Rng),
      ∀ tb ∈ (ogRunTrace params rng).1, EdgesTimeOrdered tb)
    ∧ (∀ (parent : Diploid) (off : ℤ) (params : SimParams) (t : Tables)
        (rng : Rng) (draws : List ℚ) (t' : Tables),
      EdgesTimeOrdered t →
      validId t parent.node0 → validId t parent.node1 → validId t off →
      t.timeOf off < t.timeOf parent.node0 →
      t.timeOf off < t.timeOf parent.node1 →
      crossover_and_record_edges_details parent off params t rng draws = some t' →
      EdgesTimeOrdered t') :=
  ⟨moranRunTrace_ordered, ogRunTrace_ordered,
   fun _ _ _ _ _ _ _ hord hp0 hp1 hoff ht0 ht1 h =>
     crossover_details_ordered hord hp0 hp1 hoff ht0 ht1 h⟩

/-- C5 witness: the Moran founder table (one node, zero steps), the
overlapping-generations founder table (two nodes, zero steps) and the
result of one zero-crossover transmission on a three-node table all
satisfy the time-ordering invariant, each obtained by applying the
theorem at those concrete runs. -/
theorem c5_witness :
    EdgesTimeOrdered (⟨1, [⟨0, 0⟩], []⟩ : Tables)
    ∧ EdgesTimeOrdered (⟨1, [⟨0, 0⟩, ⟨0, 0⟩], []⟩ : Tables)
    ∧ EdgesTimeOrdered (⟨10, [⟨0, 7⟩, ⟨0, 7⟩, ⟨0, 3⟩], [⟨0, 10, 1, 2⟩]⟩ : Tables) := by
  refine ⟨?_, ?_, ?_⟩
  · exact c5_parent_time_gt_child_time.1 1 0 zeroRng ⟨1, [⟨0, 0⟩], []⟩ (by decide)
  · exact c5_parent_time_gt_child_time.2.1 ogWitnessParams zeroRng
      ⟨1, [⟨0, 0⟩, ⟨0, 0⟩], []⟩ (by decide)
  · have hc : compare (0 : ℚ) (1 / 2) = Ordering.lt := by
      rw [compare_lt_iff_lt]; norm_num
    exact c5_parent_time_gt_child_time.2.2 ⟨0, 1⟩ 2 SimParams.defaults cxOrdT
      zeroRng [] ⟨10, [⟨0, 7⟩, ⟨0, 7⟩, ⟨0, 3⟩], [⟨0, 10, 1, 2⟩]⟩
      (by decide) (by decide) (by decide) (by decide) (by decide) (by decide)
      (by norm_num [crossover_and_record_edges_details, mendelPair, Rng.genF64,
        zeroRng, F64.pcmp, hc, cxOrdT, Tables.addEdge, SimParams.defaults])

/-! ### The zero simplification-interval panic -/

/-- A non-NaN modelled float is a finite value. -/
theorem F64.exists_val_of_ne_nan {x : F64} (h : x ≠ F64.nan) :
    ∃ q, x = F64.val q := by
  cases x with
  | val q => exact ⟨q, rfl⟩
  | nan => exact absurd rfl h

/-- With a non-NaN survival probability and non-NaN draws, the death
loop always completes, keeps the real-draw stream, and produces
replacement indices only from the processed index list. -/
theorem ogDeaths_progress {psurvival : F64} {step : ℕ}
    (hps : psurvival ≠ F64.nan) :
    ∀ (idxs : List ℕ) (t : Tables) (rng : Rng) (reps : List Replacement),
      (∀ i, rng.reals i ≠ F64.nan) →
      ∃ t' rng' reps',
        ogDeaths psurvival step idxs t rng reps = some (t', rng', reps')
        ∧ rng'.reals = rng.reals
        ∧ ∀ r ∈ reps', r ∈ reps ∨ r.index ∈ idxs := by
  obtain ⟨qs, hqs⟩ := F64.exists_val_of_ne_nan hps
  intro idxs
  induction idxs with
  | nil =>
    intro t rng reps _
    exact ⟨t, rng, reps, rfl, rfl, fun r hr => Or.inl hr⟩
  | cons index rest ih =>
    intro t rng reps hreals
    obtain ⟨q, hq⟩ := F64.exists_val_of_ne_nan (hreals rng.rpos)
    have hih := ih ((t.addNode 0 step).1.addNode 0 step).1
      { rng with rpos := rng.rpos + 1 }
      (reps ++ [⟨index, (t.addNode 0 step).2,
        ((t.addNode 0 step).1.addNode 0 step).2⟩])
      (fun i => hreals i)
    have hih2 := ih t { rng with rpos := rng.rpos + 1 } reps (fun i => hreals i)
    have hpc : F64.pcmp (F64.val q) psurvival = some (compare q qs) := by
      rw [hqs]
      rfl
    simp only [ogDeaths, Rng.genF64, hq, hpc]
    cases hc : compare q qs with
    | lt =>
      simp only []
      obtain ⟨t', rng', reps', h, hr, hm⟩ := hih2
      refine ⟨t', rng', reps', h, hr, ?_⟩
      intro r hrr
      rcases hm r hrr with h' | h'
      · exact Or.inl h'
      · exact Or.inr (List.mem_cons_of_mem _ h')
    | eq =>
      simp only []
      obtain ⟨t', rng', reps', h, hr, hm⟩ := hih2
      refine ⟨t', rng', reps', h, hr, ?_⟩
      intro r hrr
      rcases hm r hrr with h' | h'
      · exact Or.inl h'
      · exact Or.inr (List.mem_cons_of_mem _ h')
    | gt =>
      simp only []
      obtain ⟨t', rng', reps', h, hr, hm⟩ := hih
      refine ⟨t', rng', reps', h, hr, ?_⟩
      intro r hrr
      rcases hm r hrr with h' | h'
      · rcases List.mem_append.mp h' with h'' | h''
        · exact Or.inl h''
        · rw [List.mem_singleton] at h''
          subst h''
          exact Or.inr (List.mem_cons_self _ _)
      · exact Or.inr (List.mem_cons_of_mem _ h')

/-- With a positive population, a double-sized alive vector and non-NaN
draws, one offspring's edge record always completes. -/
theorem ogRecordEdge_progress {popsize : ℕ} {alive : List ℤ} {off : ℤ}
    {t : Tables} {rng : Rng} (hpop : 0 < popsize)
    (hlen : alive.length = 2 * popsize)
    (hreals : ∀ i, rng.reals i ≠ F64.nan) :
    ∃ t' rng', ogRecordEdge popsize alive off t rng = some (t', rng')
      ∧ rng'.reals = rng.reals := by
  have hpi : (rng.sample popsize).1 < popsize := Nat.mod_lt _ hpop
  have h1 : 2 * (rng.sample popsize).1 < alive.length := by rw [hlen]; omega
  have h2 : 2 * (rng.sample popsize).1 + 1 < alive.length := by rw [hlen]; omega
  obtain ⟨q, hq⟩ := F64.exists_val_of_ne_nan (hreals rng.rpos)
  unfold ogRecordEdge
  rw [List.get?_eq_get h1, List.get?_eq_get h2]
  simp only [Rng.sample, Rng.genF64, hq, F64.pcmp]
  cases hc : compare q (1 / 2) with
  | lt => exact ⟨_, _, rfl, rfl⟩
  | eq => exact ⟨_, _, rfl, rfl⟩
  | gt => exact ⟨_, _, rfl, rfl⟩

/-- The edge loop always completes under the same conditions. -/
theorem ogEdges_progress {popsize : ℕ} {alive : List ℤ} (hpop : 0 < popsize)
    (hlen : alive.length = 2 * popsize) :
    ∀ (reps : List Replacement) (t : Tables) (rng : Rng),
      (∀ i, rng.reals i ≠ F64.nan) →
      ∃ t' rng', ogEdges popsize alive reps t rng = some (t', rng')
        ∧ rng'.reals = rng.reals := by
  intro reps
  induction reps with
  | nil =>
    intro t rng _
    exact ⟨t, rng, rfl, rfl⟩
  | cons r rest ih =>
    intro t rng hreals
    obtain ⟨t1, rng1, h1, hr1⟩ := ogRecordEdge_progress hpop hlen hreals
    obtain ⟨t2, rng2, h2, hr2⟩ := ogRecordEdge_progress hpop hlen
      (by intro i; rw [hr1]; exact hreals i)
    obtain ⟨t', rng', h3, hr3⟩ := ih t2 rng2
      (by intro i; rw [hr2, hr1]; exact hreals i)
    refine ⟨t', rng', ?_, by rw [hr3, hr2, hr1]⟩
    simp only [ogEdges]
    rw [h1]
    simp only []
    rw [h2]
    simp only []
    exact h3

/-- The replacement loop always completes when every replacement index
is in range. -/
theorem ogReplace_progress :
    ∀ (reps : List Replacement) (alive : List ℤ),
      (∀ r ∈ reps, 2 * r.index + 1 < alive.length) →
      ∃ alive', ogReplace reps alive = some alive' := by
  intro reps
  induction reps with
  | nil =>
    intro alive _
    exact ⟨alive, rfl⟩
  | cons r rest ih =>
    intro alive hidx
    have h0 := hidx r (List.mem_cons_self r rest)
    have h1 : 2 * r.index < alive.length := by omega
    have h2 : 2 * r.index + 1 < (alive.set (2 * r.index) r.node1).length := by
      rw [List.length_set]; omega
    obtain ⟨alive', h⟩ := ih ((alive.set (2 * r.index) r.node1).set
        (2 * r.index + 1) r.node1)
      (by intro r' hr'
          rw [List.length_set, List.length_set]
          exact hidx r' (List.mem_cons_of_mem r hr'))
    refine ⟨alive', ?_⟩
    simp only [ogReplace]
    rw [if_pos h1, if_pos h2]
    exact h

/-- With a zero simplification interval, any overlapping-generations
step that reaches the simplify check panics at the remainder-by-zero:
it returns exactly the pre-sort snapshot and no successor state. -/
theorem ogStep_zero_interval {p : SimParams} {s : ℕ} {st : OgState}
    (hsi : p.simplificationInterval = 0) (hpop : 0 < p.popsize)
    (hlen : st.alive.length = 2 * p.popsize)
    (hps : p.psurvival ≠ F64.nan)
    (hreals : ∀ i, st.rng.reals i ≠ F64.nan) :
    ∃ t2, ogStep p s st = ([t2], none) := by
  obtain ⟨t1, rng1, reps, hd, hr1, hidx⟩ := ogDeaths_progress hps
    (List.range p.popsize) st.tables st.rng [] hreals
  obtain ⟨t2, rng2, he, _⟩ := ogEdges_progress hpop hlen reps t1 rng1
    (by intro i; rw [hr1]; exact hreals i)
  obtain ⟨alive2, hrep⟩ := ogReplace_progress reps st.alive
    (by intro r hr
        rcases hidx r hr with h' | h'
        · cases h'
        · rw [hlen]
          have := List.mem_range.mp h'
          omega)
  unfold ogStep
  rw [hd]
  simp only []
  rw [he]
  simp only []
  rw [hrep]
  simp only []
  rw [show checkedMod s p.simplificationInterval = none from by
    rw [hsi]; rfl]
  exact ⟨t2, rfl⟩

/-- C10: configuration validation never inspects
`simplification_interval` (first conjunct), and for every parameter set
with `nsteps ≥ 1` and `simplification_interval = 0` (survival
probability and draws non-NaN so the first step reaches the simplify
check), the generation loop's `step % simplification_interval` is a
remainder by zero and the run panics on the first step: the final state
is `none` and the trace holds only the founder table and the first
step's pre-sort snapshot. -/
theorem c10_zero_interval_panics_unvalidated :
    (∀ (p : SimParams) (k : ℕ),
      validate { p with simplificationInterval := k } = validate p)
    ∧ ∀ (p : SimParams) (rng : Rng),
        1 ≤ p.nsteps → p.simplificationInterval = 0 → 1 ≤ p.popsize →
        0 < p.genomeLength → p.psurvival ≠ F64.nan →
        (∀ i, rng.reals i ≠ F64.nan) →
        (ogRunTrace p rng).2 = none ∧ (ogRunTrace p rng).1.length = 2 := by
  constructor
  · intro p k
    rfl
  · intro p rng hn hsi hpop hL hps hreals
    unfold ogRunTrace
    rw [show Tables.new p.genomeLength = some ⟨p.genomeLength, [], []⟩ from by
      unfold Tables.new; rw [if_pos hL]]
    simp only []
    rw [if_neg (by omega : ¬ p.popsize = 0)]
    obtain ⟨_, hlen, _⟩ := ogInitNodes_inv p.popsize p.nsteps
      ⟨p.genomeLength, [], []⟩ []
      (by intro e he; cases he) (by intro a ha; cases ha)
    cases hn' : p.nsteps with
    | zero => omega
    | succ m =>
      rw [hn'] at hlen
      obtain ⟨t2, hstep⟩ := @ogStep_zero_interval p m
        ⟨(ogInitNodes p.popsize (m + 1) ⟨p.genomeLength, [], []⟩ []).1,
         (ogInitNodes p.popsize (m + 1) ⟨p.genomeLength, [], []⟩ []).2,
         rng⟩
        hsi (by omega) (by simpa using hlen) hps hreals
      rw [show ogLoop p (m + 1)
          ⟨(ogInitNodes p.popsize (m + 1) ⟨p.genomeLength, [], []⟩ []).1,
           (ogInitNodes p.popsize (m + 1) ⟨p.genomeLength, [], []⟩ []).2,
           rng⟩ = ([t2], none) from by
        unfold ogLoop; rw [hstep]]
      exact ⟨rfl, rfl⟩

/-- C10 witness: one diploid, one step, simplification interval zero:
the run's final state is `none` (the remainder-by-zero panic) after only
the founder snapshot and the first step's pre-sort snapshot. -/
theorem c10_witness :
    (ogRunTrace ⟨1, 1, 0, F64.val 0, 1, 0⟩ zeroRng).2 = none
    ∧ (ogRunTrace ⟨1, 1, 0, F64.val 0, 1, 0⟩ zeroRng).1.length = 2 :=
  c10_zero_interval_panics_unvalidated.2 ⟨1, 1, 0, F64.val 0, 1, 0⟩ zeroRng
    (by decide) rfl (by decide) (by norm_num)
    (fun h => F64.noConfusion h)
    (fun i h => F64.noConfusion h)

end TskitSim
